import Mathlib

/-!
Verification development for the schedule-driven conditioning engine of
`prompt_control/node_clip.py`.

Modelling conventions:
* Python floats are modelled as rationals; `round(x, 2)` is round-half-to-even
  at two decimal places (CPython's rounding of exactly representable values),
  `int(x)` truncates toward zero, `//` is floor division.
* Tensors are lists of rationals; elementwise arithmetic is `List.zipWith`.
* Fallible code returns `Except String`; the payload is a short tag naming the
  Python exception being modelled.
* The external collaborators (CLIP token encoder, LoRA subsystem) are abstract
  function parameters, as the spec declares them out of scope.
* Helpers from `utils.py` (absent from `src/`) are modelled from the spec and
  marked as such in their doc comments.
-/

namespace PromptControl

/-- Round half to even to an integer: Python `round(x)` on exact rationals. -/
def rhe (q : ℚ) : ℤ :=
  let n := ⌊q⌋
  let r := q - n
  if r < 1/2 then n
  else if 1/2 < r then n + 1
  else if n % 2 = 0 then n else n + 1

/-- Python `round(x, 2)` on exact rationals. -/
def round2 (q : ℚ) : ℚ := (rhe (q * 100) : ℚ) / 100

/-- Python `int(x)`: truncation toward zero. -/
def pyTrunc (q : ℚ) : ℤ := if 0 ≤ q then ⌊q⌋ else -⌊-q⌋

/-- Elementwise sum of two equally long tensors (`a + b` in torch). -/
def vadd (a b : List ℚ) : List ℚ := List.zipWith (· + ·) a b

/-- Tensor times scalar (`t * c` in torch). -/
def vscale (c : ℚ) (v : List ℚ) : List ℚ := v.map (fun x => x * c)

/-- `from + (to - from) * factor`, elementwise. -/
def blendL (f : ℚ) (a b : List ℚ) : List ℚ :=
  List.zipWith (fun x y => x + (y - x) * f) a b

/-- Pad a tensor to length `n` by repeating its last element. -/
def padTo (n : Nat) (v : List ℚ) : List ℚ :=
  v ++ List.replicate (n - v.length) (v.getLastD 0)

/-- Modelled from the spec: `utils.equalize` is not under `src/`; section 4.3
says it length-equalizes tensors, padding the shorter by repeating its last
element and never truncating.  Binary version. -/
def equalize2 (a b : List ℚ) : List ℚ × List ℚ :=
  let n := max a.length b.length
  (padTo n a, padTo n b)

/-- Modelled from the spec: n-ary `utils.equalize` (see `equalize2`). -/
def equalizeAll (ts : List (List ℚ)) : List (List ℚ) :=
  let n := (ts.map List.length).foldr max 0
  ts.map (padTo n)

/-- Elementwise sum of a non-empty family of equalized tensors
(Python `sum(equalize(*ts))`; the integer seed `0` broadcasts away). -/
def vsum (ts : List (List ℚ)) : List ℚ :=
  match ts with
  | [] => []
  | t :: rest => rest.foldl vadd t

/-- The `area` tuple produced by `get_area`: either the symbolic percentage
form `("percentage", h, w, y, x)` or latent-grid pixel coordinates. -/
inductive AreaVal where
  | pct (h w y x : ℚ)
  | pixel (h w y x : ℤ)
deriving DecidableEq, Repr

/-- A `(1, h, w)`-shaped float tensor, as nested lists. -/
abbrev Mask3 := List (List (List ℚ))

/-- The model-specific conditioning size options emitted by `get_sdxl`
(all absent when the directive is absent). -/
structure SdxlOpts where
  width : Option ℤ
  height : Option ℤ
  target_width : Option ℤ
  target_height : Option ℤ
  crop_w : Option ℤ
  crop_h : Option ℤ
deriving DecidableEq, Repr

def SdxlOpts.empty : SdxlOpts := ⟨none, none, none, none, none, none⟩

/-- Python dict update: keys present in `b` overwrite those of `a`. -/
def SdxlOpts.update (a b : SdxlOpts) : SdxlOpts :=
  ⟨b.width.orElse (fun _ => a.width), b.height.orElse (fun _ => a.height),
   b.target_width.orElse (fun _ => a.target_width),
   b.target_height.orElse (fun _ => a.target_height),
   b.crop_w.orElse (fun _ => a.crop_w), b.crop_h.orElse (fun _ => a.crop_h)⟩

/-- `b` is "truthy" as a Python dict when any key is present. -/
def SdxlOpts.truthy (a : SdxlOpts) : Bool :=
  a.width.isSome || a.height.isSome || a.target_width.isSome ||
  a.target_height.isSome || a.crop_w.isSome || a.crop_h.isSome

/-- The metadata dict of a `ConditioningSegment`: every key the engine ever
writes, each optional (absent key = `none`). -/
structure Meta where
  pooled_output : Option (List ℚ)
  start_percent : Option ℚ
  end_percent : Option ℚ
  prompt : Option String
  strength : Option ℚ
  area : Option AreaVal
  set_area_to_bounds : Option Bool
  mask : Option Mask3
  mask_strength : Option ℚ
  sdxl : SdxlOpts
deriving DecidableEq, Repr

def Meta.empty : Meta :=
  ⟨none, none, none, none, none, none, none, none, none, SdxlOpts.empty⟩

/-- A `ConditioningSegment`: `[tensor, metadata]`. -/
abbrev Cond := List ℚ × Meta

/-- One iteration block of the `for s in range(start_on, num_steps)` loop of
`linear_interpolate_cond` (node_clip.py lines 63-88), run for `k` remaining
steps.  The threaded `Option (List ℚ)` values model the Python locals
`from_pooled`, `to_pooled` and `new_pooled`; for the last one `none` means
"never assigned", so consulting it raises `UnboundLocalError` exactly as
Python does at line 73. -/
def licLoop (fc tc : List ℚ) (x step : ℚ) (baseMeta : Meta) (prompt_start : String) :
    Nat → ℤ → ℚ → Option (List ℚ) → Option (List ℚ) → Option (List ℚ) →
    Except String (List Cond × (Option (List ℚ) × Option (List ℚ) × Option (List ℚ)))
  | 0, _, _, fp, tp, np => .ok ([], (fp, tp, np))
  | k + 1, s, pct, fp, tp, np =>
    let factor := round2 (((s : ℚ) + 1) * x)
    let new_cond := blendL factor fc tc
    let st : Option (List ℚ) × Option (List ℚ) × Option (List ℚ) :=
      match fp, tp with
      | some f, some t =>
        let e := equalize2 f t
        (some e.1, some e.2, some (blendL factor e.1 e.2))
      | some f, none => (some f, none, some f)
      | none, t => (none, t, np)
    match st.2.2 with
    | none => .error "UnboundLocalError: new_pooled"
    | some pv =>
      let m : Meta :=
        { baseMeta with
          pooled_output := some pv
          start_percent := some (round2 pct)
          end_percent := some (min (round2 (pct + step)) 1)
          prompt := if prompt_start ≠ "" then
              some ("linear:" ++ toString (1 - factor) ++ " / " ++ toString factor)
            else baseMeta.prompt }
      match licLoop fc tc x step baseMeta prompt_start k (s + 1) (round2 (pct + step)) st.1 st.2.1 (some pv) with
      | .error e => .error e
      | .ok (rest, stf) => .ok ((new_cond, m) :: rest, stf)

/-- Overwrite the `end_percent` of the last segment (`res[-1]`). -/
def setLastEnd (v : ℚ) : List Cond → List Cond
  | [] => []
  | [c] => [(c.1, { c.2 with end_percent := some v })]
  | c :: c' :: rest => c :: setLastEnd v (c' :: rest)

/-- The `if res:` postlude of a per-index iteration (lines 89-91): on a
non-empty result, force the last segment's `end_percent` to `round(end_at, 2)`
and hand back the final `new_pooled` binding state. -/
def licIdxPost (end_at : ℚ)
    (r : Except String (List Cond × (Option (List ℚ) × Option (List ℚ) × Option (List ℚ)))) :
    Except String (List Cond × Option (List ℚ)) :=
  match r with
  | .error er => .error er
  | .ok (res, stf) =>
    if res.isEmpty then .ok ([], stf.2.2)
    else .ok (setLastEnd (round2 end_at) res, stf.2.2)

/-- The per-index body of `linear_interpolate_cond` (lines 49-91): equalize the
two tensors, compute the step counts, run the inner loop, and post-process. -/
def licIdx (from_step to_step step start_at end_at : ℚ) (prompt_start : String)
    (a b : Cond) (np : Option (List ℚ)) : Except String (List Cond × Option (List ℚ)) :=
  let e := equalize2 a.1 b.1
  let total_steps := rhe ((to_step - from_step) / step)
  let num_steps := rhe ((end_at - from_step) / step)
  let start_on := rhe ((start_at - from_step) / step)
  let x := 1 / ((total_steps : ℚ) + 1)
  licIdxPost end_at
    (licLoop e.1 e.2 x step a.2 prompt_start (num_steps - start_on).toNat start_on
      start_at a.2.pooled_output b.2.pooled_output np)

/-- The `for idx in range(count)` loop of `linear_interpolate_cond`,
threading the persistent Python local `new_pooled` across indices and
concatenating the per-index results (`all_res`). -/
def licPairs (from_step to_step step start_at end_at : ℚ) (prompt_start : String) :
    List (Cond × Cond) → Option (List ℚ) → Except String (List Cond)
  | [], _ => .ok []
  | p :: rest, np =>
    match licIdx from_step to_step step start_at end_at prompt_start p.1 p.2 np with
    | .error e => .error e
    | .ok (res, np1) =>
      match licPairs from_step to_step step start_at end_at prompt_start rest np1 with
      | .error e => .error e
      | .ok more => .ok (res ++ more)

/-- `linear_interpolate_cond` (node_clip.py lines 35-92).  `start_at`/`end_at`
are `None`-able keyword arguments defaulting to `from_step`/`to_step`; the
Python reassignment inside the loop is loop-invariant, so the defaults are
resolved up front.  Pairing is by index up to the shorter length (`zip`). -/
def linear_interpolate_cond (start end_ : List Cond) (from_step to_step step : ℚ)
    (start_at end_at : Option ℚ) (prompt_start : String) : Except String (List Cond) :=
  let sa := start_at.getD from_step
  let ea := end_at.getD to_step
  licPairs from_step to_step step sa ea prompt_start (List.zip start end_) none

/-! ### String utilities and the directive extractor -/

def isWordChar (c : Char) : Bool := c.isAlphanum || c == '_'

/-- Substring containment (Python `pat in s`). -/
def containsSub (pat : List Char) : List Char → Bool
  | [] => pat.isEmpty
  | c :: rest => pat.isPrefixOf (c :: rest) || containsSub pat rest

/-- Strip leading and trailing whitespace (Python `str.strip`). -/
def trimChars (cs : List Char) : List Char :=
  ((cs.dropWhile Char.isWhitespace).reverse.dropWhile Char.isWhitespace).reverse

def strTrim (s : String) : String := String.mk (trimChars s.toList)

/-- Split on a single character, keeping empty pieces. -/
def splitOnChar (c : Char) : List Char → List (List Char)
  | [] => [[]]
  | x :: rest =>
    if x == c then [] :: splitOnChar c rest
    else
      match splitOnChar c rest with
      | [] => [[x]]
      | h :: t => (x :: h) :: t

/-- Replace every occurrence of a pattern (Python `str.replace`). -/
def replaceSub (pat repl : List Char) : ℕ → List Char → List Char
  | 0, cs => cs
  | _, [] => []
  | fuel + 1, c :: rest =>
    if pat.isPrefixOf (c :: rest) && !pat.isEmpty then
      repl ++ replaceSub pat repl fuel ((c :: rest).drop pat.length)
    else c :: replaceSub pat repl fuel rest

/-- Split on runs of whitespace, dropping empty pieces (regex split on `\s+`
after Python float parsing trims). -/
def splitWsChars : ℕ → List Char → List (List Char)
  | 0, _ => []
  | _, [] => []
  | fuel + 1, c :: rest =>
    if c.isWhitespace then splitWsChars fuel rest
    else (c :: rest.takeWhile (fun d => !d.isWhitespace)) ::
      splitWsChars fuel (rest.dropWhile (fun d => !d.isWhitespace))

def splitWs (s : String) : List String :=
  (splitWsChars (s.length + 1) s.toList).map String.mk

/-- Value of a digit string. -/
def digitsVal (ds : List Char) : ℕ :=
  ds.foldl (fun a c => a * 10 + (c.toNat - 48)) 0

/-- Parse a decimal float literal the way Python `float(...)` does for the
forms this program uses: optional sign, digits, optional dot, digits
(exponents and specials are not used by any schedule text and are omitted). -/
def pyFloatChars? (cs : List Char) : Option ℚ :=
  let sgn : ℚ × List Char :=
    match cs with
    | '-' :: r => (-1, r)
    | '+' :: r => (1, r)
    | r => (1, r)
  let ip := sgn.2.takeWhile Char.isDigit
  let rest := sgn.2.drop ip.length
  match rest with
  | [] => if ip.isEmpty then none else some (sgn.1 * digitsVal ip)
  | '.' :: fr =>
    let fp := fr.takeWhile Char.isDigit
    let rest2 := fr.drop fp.length
    if !rest2.isEmpty then none
    else if ip.isEmpty && fp.isEmpty then none
    else some (sgn.1 * ((digitsVal ip : ℚ) + (digitsVal fp : ℚ) / 10 ^ fp.length))
  | _ => none

def pyFloat? (s : String) : Option ℚ := pyFloatChars? (trimChars s.toList)

/-- Modelled from the spec: `utils.safe_float` is not under `src/`; parsing
failures fall back to the supplied default rather than raising. -/
def safe_float (s : String) (d : ℚ) : ℚ := (pyFloat? s).getD d

/-- Modelled from the spec: `utils.parse_floats` is not under `src/`; it splits
a numeric argument on whitespace and falls back to the default pair on
parsing failure instead of raising. -/
def parse_floats (s : String) (defaults : List ℚ) : List ℚ :=
  let parts := splitWs s
  if parts.length = defaults.length then List.zipWith safe_float parts defaults
  else defaults

/-- Parse an integer literal (Python `int(str)`), used by `get_mask_size`. -/
def pyIntOfString? (s : String) : Option ℤ :=
  let cs := trimChars s.toList
  let sgn : ℤ × List Char :=
    match cs with
    | '-' :: r => (-1, r)
    | '+' :: r => (1, r)
    | r => (1, r)
  if sgn.2.isEmpty || !sgn.2.all Char.isDigit then none
  else some (sgn.1 * digitsVal sgn.2)

/-- Index of the first occurrence of `name ++ "("` sitting at a word boundary
(`prev` is the character just before the scan position). -/
def dirIndex (pat : List Char) : List Char → Option Char → ℕ → Option ℕ
  | [], _, _ => none
  | c :: rest, prev, i =>
    if pat.isPrefixOf (c :: rest) &&
        (match prev with | none => true | some pc => !isWordChar pc) then some i
    else dirIndex pat rest (some c) (i + 1)

def splitArgs (s : String) : List String :=
  (splitOnChar ',' s.toList).map (fun cs => String.mk (trimChars cs))

/-- Modelled from the spec: `utils.get_function` is not under `src/`; section
4.1 says directives written `NAME(arg1, arg2, ...)` are all extracted in
source order, removed from the text, with missing trailing args falling back
to the defaults positionally. -/
def get_function_core (name : String) (defaults : List String) :
    ℕ → List Char → List Char × List (List String)
  | 0, cs => (cs, [])
  | fuel + 1, cs =>
    match dirIndex (name.toList ++ ['(']) cs none 0 with
    | none => (cs, [])
    | some i =>
      let pre := cs.take i
      let rest := cs.drop (i + name.length + 1)
      let argstr := rest.takeWhile (fun c => c != ')')
      let rest2 := rest.drop (argstr.length + 1)
      let args := splitArgs (String.mk argstr)
      let args := args ++ defaults.drop args.length
      let r := get_function_core name defaults fuel rest2
      (pre ++ r.1, args :: r.2)

/-- Modelled from the spec: see `get_function_core`. -/
def get_function (text : String) (name : String) (defaults : List String) :
    String × List (List String) :=
  let r := get_function_core name defaults (text.length + 1) text.toList
  (String.mk r.1, r.2)

/-- Split on word-boundary occurrences of a keyword (Python
`re.split(r"\bAND\b", text)`). -/
def splitWordCore (kw : List Char) : ℕ → Option Char → List Char → List Char → List (List Char)
  | _, _, acc, [] => [acc.reverse]
  | 0, _, acc, cs => [acc.reverse ++ cs]
  | fuel + 1, prev, acc, c :: rest =>
    if kw.isPrefixOf (c :: rest) &&
        (match prev with | none => true | some pc => !isWordChar pc) &&
        (match (c :: rest).drop kw.length with | [] => true | d :: _ => !isWordChar d) then
      acc.reverse :: splitWordCore kw fuel (some (kw.getLastD c)) [] ((c :: rest).drop kw.length)
    else splitWordCore kw fuel (some c) (c :: acc) rest

def resplit (kw : String) (s : String) : List String :=
  (splitWordCore kw.toList (s.length + 1) none [] s.toList).map String.mk

/-! ### The trailing weight suffix `: w [!tag]`
Python regex `:(-?\d\.?\d*)(![A-Za-z]+)?$` with `re.search` semantics:
the leftmost colon whose suffix matches through to the end wins. -/

/-- Try to match `(-?\d\.?\d*)(![A-Za-z]+)?` against the whole of `cs`,
returning the numeric value and the optional tag (with its `!`). -/
def weightTail? (cs : List Char) : Option (ℚ × Option (List Char)) :=
  let sgn : List Char × List Char :=
    match cs with
    | '-' :: r => (['-'], r)
    | r => ([], r)
  match sgn.2 with
  | d0 :: r1 =>
    if !d0.isDigit then none
    else
      let dot : List Char × List Char :=
        match r1 with
        | '.' :: r2 => (['.'], r2)
        | r2 => ([], r2)
      let ds := dot.2.takeWhile Char.isDigit
      let rest := dot.2.drop ds.length
      let numChars := sgn.1 ++ [d0] ++ dot.1 ++ ds
      match pyFloatChars? numChars with
      | none => none
      | some v =>
        match rest with
        | [] => some (v, none)
        | '!' :: tag =>
          if !tag.isEmpty && tag.all (fun c => c.isAlpha) then
            some (v, some ('!' :: tag))
          else none
        | _ => none
  | [] => none

/-- Scan left to right for a colon whose suffix matches the weight pattern
through to the end of the string. -/
def weightScan : ℕ → List Char → List Char → Option (List Char × ℚ × Option (List Char))
  | 0, _, _ => none
  | fuel + 1, pre, cs =>
    match cs with
    | [] => none
    | ':' :: rest =>
      match weightTail? rest with
      | some wt => some (pre.reverse, wt.1, wt.2)
      | none => weightScan fuel (':' :: pre) rest
    | c :: rest => weightScan fuel (c :: pre) rest

/-- The local `weight` helper of `do_encode` (lines 430-441): returns the
weight, the `scale` override from a `!noscale` tag, and the stripped text. -/
def weight (t : String) : ℚ × Option ℚ × String :=
  match weightScan (t.length + 1) [] t.toList with
  | none => (1, none, t)
  | some (pre, w, tag) =>
    let scaleOpt : Option ℚ := if tag = some "!noscale".toList then some 1 else none
    (w, scaleOpt, String.mk pre)

/-! ### Directive handlers -/

/-- The styles available with the advanced-encode import failed (the import is
absent from this repository) plus the always-appended `perp`. -/
def AVAILABLE_STYLES : List String := ["comfy", "perp"]

def AVAILABLE_NORMALIZATIONS : List String := ["none"]

/-- `get_style` (lines 181-194). -/
def get_style (text default_style default_normalization : String) :
    String × String × String :=
  let r := get_function text "STYLE" [default_style, default_normalization]
  match r.2 with
  | [] => (default_style, default_normalization, r.1)
  | args :: _ =>
    let style := args.getD 0 default_style
    let normalization := args.getD 1 default_normalization
    let style := if AVAILABLE_STYLES.contains style then style else default_style
    let normalization :=
      if AVAILABLE_NORMALIZATIONS.contains normalization then normalization
      else default_normalization
    (style, normalization, r.1)

/-- `get_sdxl` (lines 162-178).  Note line 174 of the source sets
`target_height` from `tw`, not `th`. -/
def get_sdxl (text : String) : String × SdxlOpts :=
  let r := get_function text "SDXL" ["", "1024 1024", "1024 1024", "0 0"]
  match r.2 with
  | [] => (r.1, SdxlOpts.empty)
  | args :: _ =>
    let wh := parse_floats (args.getD 0 "") [1024, 1024]
    let twth := parse_floats (args.getD 1 "") [1024, 1024]
    let crop := parse_floats (args.getD 2 "") [0, 0]
    let w := wh.getD 0 1024
    let h := wh.getD 1 1024
    let tw := twth.getD 0 1024
    let _th := twth.getD 1 1024
    let cropw := crop.getD 0 0
    let croph := crop.getD 1 0
    (r.1, ⟨some (pyTrunc w), some (pyTrunc h), some (pyTrunc tw), some (pyTrunc tw),
           some (pyTrunc cropw), some (pyTrunc croph)⟩)

def is_pct (f : ℚ) : Bool := decide (0 ≤ f) && decide (f ≤ 1)

def is_pixel (f : ℚ) : Bool := f == 0 || decide (1 < f)

/-- The validation and conversion step of `get_area` (lines 321-336) on the
four parsed range values. -/
def area_from_floats (x w y h areaWeight : ℚ) : Except String (AreaVal × ℚ) :=
  if [h, w, y, x].all is_pct then .ok (.pct h w y x, areaWeight)
  else if [h, w, y, x].all is_pixel then
    .ok (.pixel ((pyTrunc h).fdiv 8) ((pyTrunc w).fdiv 8)
          ((pyTrunc y).fdiv 8) ((pyTrunc x).fdiv 8), areaWeight)
  else .error "AREA specified with invalid size"

/-- `get_area` (lines 311-336). -/
def get_area (text : String) : Except String (String × Option (AreaVal × ℚ)) :=
  let r := get_function text "AREA" ["0 1", "0 1", "1"]
  match r.2 with
  | [] => .ok (r.1, none)
  | args :: _ =>
    let xw := parse_floats (args.getD 0 "") [0, 1]
    let yh := parse_floats (args.getD 1 "") [0, 1]
    let areaWeight := safe_float (args.getD 2 "") 1
    match area_from_floats (xw.getD 0 0) (xw.getD 1 1) (yh.getD 0 0) (yh.getD 1 1) areaWeight with
    | .error e => .error e
    | .ok a => .ok (r.1, some a)

/-- `get_mask_size` (lines 339-344); `int()` on a malformed string raises. -/
def get_mask_size (text : String) : Except String (String × ℤ × ℤ) :=
  let r := get_function text "MASK_SIZE" ["512", "512"]
  match r.2 with
  | [] => .ok (r.1, 512, 512)
  | args :: _ =>
    match pyIntOfString? (args.getD 0 "512"), pyIntOfString? (args.getD 1 "512") with
    | some w, some h => .ok (r.1, w, h)
    | _, _ => .error "ValueError: invalid literal for int"

/-- `torch.full((1, h, w), 0)`-style constructor. -/
def torchFull3 (c h w : ℕ) (v : ℚ) : Mask3 :=
  List.replicate c (List.replicate h (List.replicate w v))

/-- `t[a:b, c:d] = v` on a 3-d tensor: the two slices apply to the first two
dimensions (modelled for the nonnegative bounds this program produces). -/
def sliceAssign2of3 (m : Mask3) (a b c d : ℤ) (v : ℚ) : Mask3 :=
  m.mapIdx (fun i plane =>
    if a ≤ (i : ℤ) ∧ (i : ℤ) < b then
      plane.mapIdx (fun j row => if c ≤ (j : ℤ) ∧ (j : ℤ) < d then row.map (fun _ => v) else row)
    else plane)

/-- The validation and construction step of `get_mask` (lines 359-383) on the
four parsed range values against the canvas size.  Note line 381 of the
source writes `mask[ys0:ys1, xs0:xs1] = 1` on the `(1, h, w)`-shaped tensor,
so the `y` slice lands on the singleton batch dimension and the `x` slice on
the row dimension. -/
def mask_from_floats (x1 x2 y1 y2 maskWeight : ℚ) (size : ℤ × ℤ) :
    Except String (Mask3 × ℚ) :=
  let w := size.1
  let h := size.2
  if [x1, x2, y1, y2].all is_pct then
    let xs := (pyTrunc ((w : ℚ) * x1), pyTrunc ((w : ℚ) * x2))
    let ys := (pyTrunc ((h : ℚ) * y1), pyTrunc ((h : ℚ) * y2))
    .ok (sliceAssign2of3 (torchFull3 1 h.toNat w.toNat 0) ys.1 ys.2 xs.1 xs.2 1, maskWeight)
  else if [x1, x2, y1, y2].all is_pixel then
    let xs := (pyTrunc x1, pyTrunc x2)
    let ys := (pyTrunc y1, pyTrunc y2)
    .ok (sliceAssign2of3 (torchFull3 1 h.toNat w.toNat 0) ys.1 ys.2 xs.1 xs.2 1, maskWeight)
  else .error "MASK specified with invalid size"

/-- `get_mask` (lines 347-383). -/
def get_mask (text : String) (size : ℤ × ℤ) :
    Except String (String × Option Mask3 × Option ℚ) :=
  let r := get_function text "MASK" ["0 1", "0 1", "1"]
  match r.2 with
  | [] => .ok (r.1, none, none)
  | args :: _ =>
    let x12 := parse_floats (args.getD 0 "") [0, 1]
    let y12 := parse_floats (args.getD 1 "") [0, 1]
    let maskWeight := safe_float (args.getD 2 "") 1
    match mask_from_floats (x12.getD 0 0) (x12.getD 1 1) (y12.getD 0 0) (y12.getD 1 1)
        maskWeight size with
    | .error e => .error e
    | .ok mw => .ok (r.1, some mw.1, some mw.2)

/-- `get_noise` (lines 386-404); the generator is modelled by its optional
seed. -/
def get_noise (text : String) : String × Option ℚ × Option ℤ :=
  let r := get_function text "NOISE" ["0.0", "none"]
  match r.2 with
  | [] => (r.1, none, none)
  | n0 :: _ =>
    let gen : Option ℤ :=
      match pyFloat? (n0.getD 1 "none") with
      | none => none
      | some q => some (pyTrunc q)
    let w := r.2.foldl (fun acc n => acc + safe_float (n.getD 0 "") 0) 0
    (r.1, some (max (min w 1) 0), gen)

/-- `apply_noise` (lines 407-413), with the normal sampler abstracted as a
function of the (optional) seed and the tensor length. -/
def apply_noise (randn : Option ℤ → ℕ → List ℚ) (cond : Option (List ℚ))
    (noiseW : Option ℚ) (gen : Option ℤ) : Option (List ℚ) :=
  match cond, noiseW with
  | none, _ => none
  | some c, none => some c
  | some c, some w =>
    if w = 0 then some c
    else some (List.zipWith (fun xv nv => xv * (1 - w) + nv * w) c (randn gen c.length))

/-! ### The weighted multi-prompt encoder `do_encode`

`encode_prompt` delegates to the external CLIP tokenizer/encoder, so it is an
abstract parameter `encP : prompt → style → normalization → (tensor, pooled)`;
the normal sampler of `apply_noise` is likewise a parameter `randn`. -/

/-- The `for prompt in prompts` loop of `do_encode` (lines 446-478), threading
the Python locals `text` (re-extracted for noise each iteration), `conds` and
`res`.  `p` is the loop-invariant local holding the first sub-prompt after
SDXL extraction; lines 453 and 461 of the source call `get_sdxl(p)` and
rebind `prompt`, which this embedding reproduces. -/
def do_encode_loop (encP : String → String → String → List ℚ × Option (List ℚ))
    (randn : Option ℤ → ℕ → List ℚ) (style normalization : String)
    (mask_size : ℤ × ℤ) (alt_method : Bool) (scale : ℚ) (sdxl_opts : SdxlOpts)
    (p : String) :
    List String → String → List Cond → List (List ℚ × Option (List ℚ) × ℚ) →
    Except String (String × List Cond × List (List ℚ × Option (List ℚ) × ℚ))
  | [], text, conds, res => .ok (text, conds, res)
  | prompt :: rest, text, conds, res =>
    match get_mask prompt mask_size with
    | .error e => .error e
    | .ok (prompt1, mask, mask_weight) =>
      let wr := weight prompt1
      let w := wr.1
      let opts_scale := wr.2.1
      let prompt2 := wr.2.2
      let nr := get_noise text
      let text1 := nr.1
      let noise_w := nr.2.1
      let generator := nr.2.2
      if w = 0 then
        do_encode_loop encP randn style normalization mask_size alt_method scale
          sdxl_opts p rest text1 conds res
      else
        match get_area prompt2 with
        | .error e => .error e
        | .ok (_, area) =>
          -- line 453: `prompt, local_sdxl_opts = get_sdxl(p)` rebinds `prompt`
          -- from the loop-invariant `p`, discarding the stripped sub-prompt
          let sr := get_sdxl p
          let prompt4 := sr.1
          let ep := encP prompt4 style normalization
          let cond := (apply_noise randn (some ep.1) noise_w generator).getD []
          let pooled := apply_noise randn ep.2 noise_w generator
          let settings0 := { Meta.empty with prompt := some prompt4 }
          let settings1 := if alt_method then { settings0 with strength := some w } else settings0
          -- line 461 repeats `get_sdxl(p)`
          let local_sdxl_opts := (get_sdxl p).2
          let settings2 :=
            { settings1 with sdxl := (settings1.sdxl.update sdxl_opts).update local_sdxl_opts }
          let settings3 :=
            match area with
            | some a =>
              { settings2 with area := some a.1, strength := some a.2,
                               set_area_to_bounds := some false }
            | none => settings2
          let settings4 :=
            match mask with
            | some m => { settings3 with mask := some m, mask_strength := mask_weight }
            | none => settings3
          if mask.isSome || area.isSome || alt_method || local_sdxl_opts.truthy then
            let settings5 :=
              match pooled with
              | some pl => { settings4 with pooled_output := some pl }
              | none => settings4
            do_encode_loop encP randn style normalization mask_size alt_method scale
              sdxl_opts p rest text1 (conds ++ [(cond, settings5)]) res
          else
            let s := opts_scale.getD scale
            do_encode_loop encP randn style normalization mask_size alt_method scale
              sdxl_opts p rest text1 conds (res ++ [(cond, pooled, w / s)])

/-- `do_encode` (lines 416-489). -/
def do_encode (encP : String → String → String → List ℚ × Option (List ℚ))
    (randn : Option ℤ → ℕ → List ℚ) (text0 : String) : Except String (List Cond) :=
  let st := get_style text0 "comfy" "none"
  let style := st.1
  let normalization := st.2.1
  match get_mask_size st.2.2 with
  | .error e => .error e
  | .ok (text2, msw, msh) =>
    let alt_method := containsSub "COMFYAND()".toList text2.toList
    let text3 := String.mk (replaceSub "COMFYAND()".toList [] (text2.length + 1) text2.toList)
    let prompts := (resplit "AND" text3).map strTrim
    match prompts with
    | [] => .ok []
    | pr0 :: prTail =>
      let g := get_sdxl pr0
      let p := g.1
      let sdxl_opts := g.2
      let prompts1 := p :: prTail
      let scale := (prompts1.map (fun q =>
        if containsSub "AREA(".toList q.toList || containsSub "MASK(".toList q.toList then 0
        else |(weight q).1|)).sum
      match do_encode_loop encP randn style normalization (msw, msh) alt_method scale
          sdxl_opts p prompts1 text3 [] [] with
      | .error e => .error e
      | .ok (_, conds, res) =>
        let sumconds := res.map (fun r => vscale r.2.2 r.1)
        let pooleds := res.filterMap (fun r => r.2.1)
        if res.length > 0 then
          let opts0 : Meta := { Meta.empty with sdxl := sdxl_opts }
          let opts1 :=
            if pooleds.isEmpty then opts0
            else { opts0 with pooled_output := some (vsum (equalizeAll pooleds)) }
          let sumcond := vsum (equalizeAll sumconds)
          .ok (conds ++ [(sumcond, opts1)])
        else .ok conds

/-! ### The control-point interpolator driver -/

/-- The loop body of `linear_interpolator` (lines 111-123), threading
`(t_start, start)` and the accumulated `conds`; `break` returns the
accumulator. -/
def liGo (o_start o_end step start_pct end_pct : ℚ) :
    List (ℚ × List Cond) → ℚ × List Cond → List Cond → Except String (List Cond)
  | [], _, conds => .ok conds
  | te :: rest, ts, conds =>
    if ts.1 < start_pct then liGo o_start o_end step start_pct end_pct rest te conds
    else if end_pct ≤ ts.1 then .ok conds
    else
      match linear_interpolate_cond ts.2 te.2 o_start o_end step (some ts.1) (some end_pct) "N/A" with
      | .error e => .error e
      | .ok cs =>
        if cs.isEmpty then .ok conds
        else liGo o_start o_end step start_pct end_pct rest te (conds ++ cs)

/-- `linear_interpolator` (lines 106-124); an empty control-point list would
raise `IndexError` at `control_points[0]`. -/
def linear_interpolator (control_points : List (ℚ × List Cond))
    (step start_pct end_pct : ℚ) : Except String (List Cond) :=
  match control_points with
  | [] => .error "IndexError: control_points"
  | c0 :: rest => liGo c0.1 (rest.getLastD c0).1 step start_pct end_pct rest c0 []

/-- Reference formulation following the spec's description of
`linear_interpolator` (section 4.3): walk the consecutive control-point
pairs in order, skip every pair starting below `start_pct`, stop at the
first pair starting at or after `end_pct`, concatenate the
`linear_interpolate_cond` output of each in-range pair, and abandon the
remaining pairs as soon as one in-range pair yields no segments. -/
def liSpecGo (o_start o_end step start_pct end_pct : ℚ) :
    List ((ℚ × List Cond) × (ℚ × List Cond)) → Except String (List Cond)
  | [] => .ok []
  | pr :: rest =>
    if pr.1.1 < start_pct then liSpecGo o_start o_end step start_pct end_pct rest
    else if end_pct ≤ pr.1.1 then .ok []
    else
      match linear_interpolate_cond pr.1.2 pr.2.2 o_start o_end step (some pr.1.1)
          (some end_pct) "N/A" with
      | .error e => .error e
      | .ok cs =>
        if cs.isEmpty then .ok []
        else
          match liSpecGo o_start o_end step start_pct end_pct rest with
          | .error e => .error e
          | .ok more => .ok (cs ++ more)

/-- Spec-side reference for `linear_interpolator`; see `liSpecGo`. -/
def linear_interpolator_spec (control_points : List (ℚ × List Cond))
    (step start_pct end_pct : ℚ) : Except String (List Cond) :=
  match control_points with
  | [] => .error "IndexError: control_points"
  | c0 :: rest =>
    liSpecGo c0.1 (rest.getLastD c0).1 step start_pct end_pct (List.zip (c0 :: rest) rest)

/-! ### The schedule orchestrator `control_to_clip_common`

The schedule object (`PromptSchedule`, built by the external parser) and the
LoRA subsystem are abstract: `doEnc` stands for `do_encode` applied to a
LoRA-patched encoder handle, `loadLora` for `load_clip_lora(orig_clip.clone(),
loras)`.  The state record also carries `encodeLog`, a ghost list recording
each actual `do_encode` invocation (it influences nothing). -/

/-- A schedule entry's configuration: `{ "prompt": ..., "loras": ... }`. -/
structure SegmentConfig where
  prompt : String
  loras : List (String × ℚ)
deriving DecidableEq, Repr

/-- The prompt schedule: ordered `(end_percent, config)` entries plus
interpolation specs `(control point percentages, step)`. -/
structure PromptSchedule where
  entries : List (ℚ × SegmentConfig)
  interpolations : List (List ℚ × ℚ)
deriving DecidableEq, Repr

/-- Modelled from the spec: `PromptSchedule.at_step` is not under `src/`;
section 3 says a segment is active during `(previous_end, end_percent]`, so
the entry at step `s` is the first whose `end_percent` is at least `s`. -/
def at_step (S : PromptSchedule) (s : ℚ) : ℚ × SegmentConfig :=
  (S.entries.find? (fun e => decide (s ≤ e.1))).getD (S.entries.getLastD (1, ⟨"", []⟩))

/-- Insertion sort of LoRA `(name, weight_clip)` pairs by name
(Python `sorted(loras.keys())`). -/
def insertPair (kv : String × ℚ) : List (String × ℚ) → List (String × ℚ)
  | [] => [kv]
  | p :: rest => if kv.1 < p.1 then kv :: p :: rest else p :: insertPair kv rest

def sortPairs (l : List (String × ℚ)) : List (String × ℚ) := l.foldr insertPair []

/-- The cache key builder `c_str` (lines 524-530): the prompt text followed by
the sorted `(lora name, clip weight)` pairs, concatenated without separators.
(The numeric rendering differs from Python's `str(float)`, which only affects
which collisions are possible, not that the key is a function of prompt and
sorted LoRA pairs.) -/
def c_str (c : SegmentConfig) : String :=
  c.prompt ++ String.join ((sortPairs c.loras).map (fun kv => kv.1 ++ toString kv.2))

/-- The orchestrator's mutable state: the patched encoder handle, the
currently applied LoRA set, the cond cache, and the ghost encode log. -/
structure OrchState (Clip : Type) where
  clip : Clip
  current_loras : List (String × ℚ)
  cond_cache : List (String × List Cond)
  encodeLog : List SegmentConfig

/-- Association-list lookup (Python `dict.get`). -/
def alookup {α : Type} (k : String) : List (String × α) → Option α
  | [] => none
  | p :: rest => if p.1 = k then some p.2 else alookup k rest

/-- The `encode` closure (lines 532-544): cache lookup by `c_str`, with a
LoRA swap (fresh clone of the original handle) on a miss whose LoRA set
differs from the currently applied one. -/
def encodeSt {Clip : Type} (doEnc : Clip → String → Except String (List Cond))
    (orig_clip : Clip) (loadLora : Clip → List (String × ℚ) → Clip)
    (c : SegmentConfig) (st : OrchState Clip) : OrchState Clip × Except String (List Cond) :=
  let key := c_str c
  match alookup key st.cond_cache with
  | some v => (st, .ok v)
  | none =>
    let st1 :=
      if c.loras ≠ st.current_loras then
        { st with clip := loadLora orig_clip c.loras, current_loras := c.loras }
      else st
    match doEnc st1.clip c.prompt with
    | .error e => (st1, .error e)
    | .ok v =>
      ({ st1 with cond_cache := st1.cond_cache ++ [(key, v)],
                  encodeLog := st1.encodeLog ++ [c] }, .ok v)

def insertQ (q : ℚ) : List ℚ → List ℚ
  | [] => [q]
  | x :: rest => if q ≤ x then q :: x :: rest else x :: insertQ q rest

def sortQ (l : List ℚ) : List ℚ := l.foldr insertQ []

/-- Encode the segment active at each step percentage, in order, threading the
orchestrator state. -/
def encodeAtSteps {Clip : Type} (doEnc : Clip → String → Except String (List Cond))
    (orig_clip : Clip) (loadLora : Clip → List (String × ℚ) → Clip) (S : PromptSchedule) :
    List ℚ → OrchState Clip → OrchState Clip × Except String (List (ℚ × List Cond))
  | [], st => (st, .ok [])
  | s :: rest, st =>
    let r := encodeSt doEnc orig_clip loadLora (at_step S s).2 st
    match r.2 with
    | .error e => (r.1, .error e)
    | .ok v =>
      let rr := encodeAtSteps doEnc orig_clip loadLora S rest r.1
      (rr.1, rr.2.map (fun more => (s, v) :: more))

/-- `get_control_points` (lines 95-103): the requested steps plus every
schedule boundary inside their range, deduplicated and sorted, each paired
with the encoding of the segment active there.  (Python encodes while
iterating a set and sorts afterwards; encoding is modelled in sorted order,
which yields the same sorted result.) -/
def get_control_points {Clip : Type} (doEnc : Clip → String → Except String (List Cond))
    (orig_clip : Clip) (loadLora : Clip → List (String × ℚ) → Clip) (S : PromptSchedule)
    (steps : List ℚ) (st : OrchState Clip) :
    OrchState Clip × Except String (List (ℚ × List Cond)) :=
  if steps.length ≤ 1 then (st, .error "AssertionError: len(steps) > 1")
  else
    let boundaries := (S.entries.map (fun e => e.1)).filter
      (fun t => decide (steps.headD 0 ≤ t) && decide (t ≤ steps.getLastD 0))
    let new_steps := sortQ (steps ++ boundaries).dedup
    encodeAtSteps doEnc orig_clip loadLora S new_steps st

/-- The `for i in interpolations` loop of the orchestrator (lines 555-563),
accumulating segments and the running `new_start_pct`. -/
def interpFold {Clip : Type} (doEnc : Clip → String → Except String (List Cond))
    (orig_clip : Clip) (loadLora : Clip → List (String × ℚ) → Clip) (S : PromptSchedule)
    (min_step start_pct end_pct : ℚ) :
    List (List ℚ × ℚ) → ℚ → OrchState Clip → List Cond →
    OrchState Clip × Except String (List Cond × ℚ)
  | [], new_sp, st, conds => (st, .ok (conds, new_sp))
  | i :: rest, new_sp, st, conds =>
    let i_end := min (i.1.getLastD 0) end_pct
    let i_start := max (i.1.headD 0) start_pct
    let g := get_control_points doEnc orig_clip loadLora S i.1 st
    match g.2 with
    | .error e => (g.1, .error e)
    | .ok cps =>
      match linear_interpolator cps min_step i_start i_end with
      | .error e => (g.1, .error e)
      | .ok cs =>
        interpFold doEnc orig_clip loadLora S min_step start_pct end_pct rest
          (max new_sp i_end) g.1 (conds ++ cs)

/-- The `for end_pct, c in schedules` loop of `control_to_clip_common`
(lines 546-577). -/
def ctccLoop {Clip : Type} (doEnc : Clip → String → Except String (List Cond))
    (orig_clip : Clip) (loadLora : Clip → List (String × ℚ) → Clip) (S : PromptSchedule) :
    List (ℚ × SegmentConfig) → ℚ → OrchState Clip → List Cond →
    OrchState Clip × Except String (List Cond)
  | [], _, st, conds => (st, .ok conds)
  | e :: rest, start_pct, st, conds =>
    let end_pct := e.1
    let c := e.2
    let interps := S.interpolations.filter (fun i =>
      (decide (start_pct ≥ i.1.headD 0) && decide (start_pct < i.1.getLastD 0)) ||
      (decide (end_pct > i.1.headD 0) && decide (start_pct < i.1.getLastD 0)))
    let step1 : OrchState Clip × Except String (List Cond × ℚ) :=
      match interps with
      | [] => (st, .ok (conds, start_pct))
      | i0 :: irest =>
        let min_step := (irest.map (fun i => i.2)).foldl min i0.2
        interpFold doEnc orig_clip loadLora S min_step start_pct end_pct
          (i0 :: irest) start_pct st conds
    match step1 with
    | (st1, .error er) => (st1, .error er)
    | (st1, .ok (conds1, sp1)) =>
      if sp1 < end_pct then
        let r := encodeSt doEnc orig_clip loadLora c st1
        match r.2 with
        | .error er => (r.1, .error er)
        | .ok cond =>
          let stamped := cond.map (fun n =>
            (n.1, { n.2 with
                    start_percent := some (round2 sp1)
                    end_percent := some (round2 end_pct)
                    prompt := some c.prompt }))
          ctccLoop doEnc orig_clip loadLora S rest end_pct r.1 (conds1 ++ stamped)
      else ctccLoop doEnc orig_clip loadLora S rest end_pct st1 conds1

/-- `control_to_clip_common` (lines 502-580).  Returns the final state
(the caller-visible cache survives even when an exception propagates, since
Python mutates the dict in place) together with the emitted segment list or
the propagated error. -/
def control_to_clip_common {Clip : Type} (doEnc : Clip → String → Except String (List Cond))
    (clip : Clip) (loadLora : Clip → List (String × ℚ) → Clip) (S : PromptSchedule)
    (cond_cache : List (String × List Cond)) :
    OrchState Clip × Except String (List Cond) :=
  ctccLoop doEnc clip loadLora S S.entries 0 ⟨clip, [], cond_cache, []⟩ []

/-! ## Auxiliary definitions used in statements and evaluations -/

/-- The `start_pct` recurrence of the loop: `j` applications of
`pct := round(pct + step, 2)`. -/
def pctIter (step pct : ℚ) : ℕ → ℚ
  | 0 => pct
  | j + 1 => pctIter step (round2 (pct + step)) j

/-- Extract the payload of a successful run (used only to state closed
evaluations). -/
def okD (e : Except String (List Cond)) : List Cond :=
  match e with
  | .ok l => l
  | .error _ => []

/-- A concrete instantiation of the abstract token encoder, used for closed
evaluations: the tensor is the character-code list of the prompt text. -/
def encTest (t _style _norm : String) : List ℚ × Option (List ℚ) :=
  (t.toList.map (fun c => (c.toNat : ℚ)), some (t.toList.map (fun c => (c.toNat : ℚ) + 1000)))

/-- A concrete noise sampler for closed evaluations. -/
def zrandn (_seed : Option ℤ) (n : ℕ) : List ℚ := List.replicate n 0

/-- A one-entry conditioning list with a pooled output, for closed
evaluations. -/
def cW : Cond := ([1], { Meta.empty with pooled_output := some [2] })

deriving instance DecidableEq for Except

instance : DecidableEq (String × Option Mask3 × Option ℚ) :=
  fun a b => instDecidableEqProd a b

/-- The orchestration invariant: no cache key was encoded twice, and every
encoded config's key is present in the cache. -/
def Inv {Clip : Type} (st : OrchState Clip) : Prop :=
  (st.encodeLog.map c_str).Nodup ∧
  ∀ c ∈ st.encodeLog, ∃ v, alookup (c_str c) st.cond_cache = some v

/-- Every cached value is a nonempty segment list (holds of the cache the
orchestrator builds from successful nonempty encodes). -/
def CacheNE {Clip : Type} (st : OrchState Clip) : Prop :=
  ∀ k v, alookup k st.cond_cache = some v → v ≠ []

/-- The `[start_percent, end_percent)` range stamped on an emitted segment. -/
def segRange (c : Cond) : ℚ × ℚ := (c.2.start_percent.getD 0, c.2.end_percent.getD 0)

/-- Adjacent ranges either coincide (several layers of one segment) or abut:
the earlier range's end is the later range's start. -/
def chainOk : List (ℚ × ℚ) → Bool
  | [] => true
  | [_] => true
  | a :: b :: t => (decide (a = b) || decide (a.2 = b.1)) && chainOk (b :: t)

/-- The emitted ranges partition `[0, 1]`: the list is nonempty, the first
range starts at 0, the last ends at 1, consecutive ranges coincide or abut,
and every range is nondegenerate. -/
def partitionChain (rs : List (ℚ × ℚ)) : Bool :=
  !rs.isEmpty && decide ((rs.headD (0, 0)).1 = 0) &&
  decide ((rs.getLastD (0, 0)).2 = 1) && chainOk rs &&
  rs.all (fun r => decide (r.1 ≤ r.2))

/-! ## Lemmas about the numeric helpers -/

theorem rhe_ge_floor (q : ℚ) : ⌊q⌋ ≤ rhe q := by
  simp only [rhe]
  split_ifs <;> omega

theorem rhe_le_floor_add_one (q : ℚ) : rhe q ≤ ⌊q⌋ + 1 := by
  simp only [rhe]
  split_ifs <;> omega

theorem rhe_mono {q r : ℚ} (h : q ≤ r) : rhe q ≤ rhe r := by
  have hf : ⌊q⌋ ≤ ⌊r⌋ := Int.floor_le_floor h
  rcases lt_or_eq_of_le hf with hlt | heq
  · calc rhe q ≤ ⌊q⌋ + 1 := rhe_le_floor_add_one q
    _ ≤ ⌊r⌋ := by omega
    _ ≤ rhe r := rhe_ge_floor r
  · simp only [rhe]
    rw [← heq]
    split_ifs <;> first | omega | linarith

theorem rhe_int (n : ℤ) : rhe (n : ℚ) = n := by
  simp only [rhe]
  norm_num

theorem round2_mono {q r : ℚ} (h : q ≤ r) : round2 q ≤ round2 r := by
  unfold round2
  have h100 : q * 100 ≤ r * 100 := by linarith
  have := rhe_mono h100
  have hc : ((rhe (q * 100) : ℚ)) ≤ ((rhe (r * 100) : ℚ)) := by exact_mod_cast this
  linarith

theorem round2_of_mul_int {q : ℚ} (m : ℤ) (h : q * 100 = (m : ℚ)) : round2 q = q := by
  unfold round2
  rw [h, rhe_int]
  linarith

theorem round2_div10 (m : ℤ) : round2 ((m : ℚ) / 10) = (m : ℚ) / 10 := by
  refine round2_of_mul_int (10 * m) ?_
  push_cast
  ring

theorem round2_zero : round2 0 = 0 := by
  have := round2_div10 0
  norm_num at this
  simpa using this

theorem round2_one : round2 1 = 1 := by
  have := round2_div10 10
  norm_num at this
  simpa using this

/-! ## Lemmas about tensor helpers -/

theorem blendL_self (f : ℚ) (v : List ℚ) : blendL f v v = v := by
  induction v with
  | nil => rfl
  | cons a t ih =>
    simp only [blendL, List.zipWith] at ih ⊢
    rw [ih]
    ring_nf

theorem padTo_self (v : List ℚ) : padTo v.length v = v := by
  simp [padTo]

theorem equalize2_self (v : List ℚ) : equalize2 v v = (v, v) := by
  simp [equalize2, padTo_self]

theorem setLastEnd_length (v : ℚ) (l : List Cond) : (setLastEnd v l).length = l.length := by
  induction l with
  | nil => rfl
  | cons c t ih =>
    cases t with
    | nil => rfl
    | cons c' t' => simpa [setLastEnd] using ih

theorem setLastEnd_tensor_pooled (v : ℚ) (l : List Cond) :
    (setLastEnd v l).map (fun c => (c.1, c.2.pooled_output)) =
      l.map (fun c => (c.1, c.2.pooled_output)) := by
  induction l with
  | nil => rfl
  | cons c t ih =>
    cases t with
    | nil => rfl
    | cons c' t' => simpa [setLastEnd] using ih

/-! ## The unbound `new_pooled` local -/

/-- If the first index's `from_pooled` is absent and `new_pooled` has never
been assigned, the first loop iteration raises. -/
theorem licLoop_unbound (fc tc : List ℚ) (x step : ℚ) (bm : Meta) (ps : String)
    (k : ℕ) (s : ℤ) (pct : ℚ) (tp : Option (List ℚ)) :
    licLoop fc tc x step bm ps (k + 1) s pct none tp none =
      .error "UnboundLocalError: new_pooled" := by
  simp only [licLoop]

theorem licIdx_err_of_no_pooled (fs ts st sa ea : ℚ) (ps : String) (a b : Cond)
    (ha : a.2.pooled_output = none)
    (hk : rhe ((sa - fs) / st) < rhe ((ea - fs) / st)) :
    licIdx fs ts st sa ea ps a b none = .error "UnboundLocalError: new_pooled" := by
  obtain ⟨k', hk'⟩ : ∃ k', (rhe ((ea - fs) / st) - rhe ((sa - fs) / st)).toNat = k' + 1 :=
    ⟨(rhe ((ea - fs) / st) - rhe ((sa - fs) / st)).toNat - 1, by omega⟩
  rw [licIdx]
  rw [hk', ha, licLoop_unbound]
  rfl

/-! ## Characterizing the inner interpolation loop -/

theorem pctIter_tenth (j : ℕ) : ∀ m : ℤ,
    pctIter (1/10) ((m : ℚ) / 10) j = (((m + j : ℤ) : ℚ)) / 10 := by
  induction j with
  | zero => intro m; simp [pctIter]
  | succ j ih =>
    intro m
    have hstep : round2 ((m : ℚ) / 10 + 1 / 10) = ((m + 1 : ℤ) : ℚ) / 10 := by
      rw [show ((m : ℚ) / 10 + 1 / 10) = ((m + 1 : ℤ) : ℚ) / 10 by push_cast; ring]
      exact round2_div10 (m + 1)
    rw [pctIter, hstep, ih (m + 1)]
    congr 2
    push_cast
    ring

/-- A successful run of the inner loop yields exactly one segment per step,
each with the blend tensor of its step's factor and the rounded running
`start_percent`/`end_percent` stamps. -/
theorem licLoop_ok (fc tc : List ℚ) (x step : ℚ) (bm : Meta) (ps : String) :
    ∀ (k : ℕ) (s : ℤ) (pct : ℚ) (fp tp np : Option (List ℚ)) res stf,
    licLoop fc tc x step bm ps k s pct fp tp np = .ok (res, stf) →
    res.length = k ∧
    ∀ j (hj : j < res.length),
      (res.get ⟨j, hj⟩).1 = blendL (round2 ((((s + j + 1 : ℤ) : ℚ)) * x)) fc tc ∧
      (res.get ⟨j, hj⟩).2.end_percent = some (min (round2 (pctIter step pct j + step)) 1) := by
  intro k
  induction k with
  | zero =>
    intro s pct fp tp np res stf h
    simp only [licLoop] at h
    injection h with h1
    injection h1 with h2 h3
    subst h2
    exact ⟨rfl, fun j hj => absurd hj (by simp)⟩
  | succ k ih =>
    intro s pct fp tp np res stf h
    have main : ∀ (fp1 tp1 : Option (List ℚ)) (pv : List ℚ),
        (match licLoop fc tc x step bm ps k (s + 1) (round2 (pct + step)) fp1 tp1 (some pv) with
          | Except.error e => Except.error e
          | Except.ok (rest, stf') =>
            Except.ok ((blendL (round2 (((s : ℚ) + 1) * x)) fc tc,
              { bm with
                pooled_output := some pv
                start_percent := some (round2 pct)
                end_percent := some (min (round2 (pct + step)) 1)
                prompt := if ps ≠ "" then
                    some ("linear:" ++ toString (1 - round2 (((s : ℚ) + 1) * x)) ++ " / " ++
                      toString (round2 (((s : ℚ) + 1) * x)))
                  else bm.prompt }) :: rest, stf')) = Except.ok (res, stf) →
        res.length = k + 1 ∧
        ∀ j (hj : j < res.length),
          (res.get ⟨j, hj⟩).1 = blendL (round2 ((((s + j + 1 : ℤ) : ℚ)) * x)) fc tc ∧
          (res.get ⟨j, hj⟩).2.end_percent =
            some (min (round2 (pctIter step pct j + step)) 1) := by
      intro fp1 tp1 pv hm
      rcases hrec : licLoop fc tc x step bm ps k (s + 1) (round2 (pct + step)) fp1 tp1 (some pv)
        with er | ⟨rest, stf'⟩
      · rw [hrec] at hm
        exact absurd hm (by simp)
      · rw [hrec] at hm
        simp only [Except.ok.injEq, Prod.mk.injEq] at hm
        obtain ⟨hres, hstf⟩ := hm
        subst hres
        obtain ⟨hlen, hidx⟩ := ih (s + 1) (round2 (pct + step)) fp1 tp1 (some pv) rest stf' hrec
        constructor
        · simp [hlen]
        · intro j hj
          match j with
          | 0 =>
            constructor
            · show blendL (round2 (((s : ℚ) + 1) * x)) fc tc = _
              congr 2
              push_cast
              ring
            · show some (min (round2 (pct + step)) 1) = _
              rfl
          | j + 1 =>
            have hj' : j < rest.length := by
              simp at hj
              omega
            obtain ⟨ht, he⟩ := hidx j hj'
            constructor
            · show (rest.get ⟨j, hj'⟩).1 = _
              rw [ht]
              congr 3
              push_cast
              ring
            · show (rest.get ⟨j, hj'⟩).2.end_percent = _
              rw [he]
              rfl
    rcases fp with _ | f <;> rcases tp with _ | t
    · rcases np with _ | pv
      · rw [licLoop] at h
        exact absurd h (by simp)
      · rw [licLoop] at h
        exact main none none pv h
    · rcases np with _ | pv
      · rw [licLoop] at h
        exact absurd h (by simp)
      · rw [licLoop] at h
        exact main none (some t) pv h
    · rw [licLoop] at h
      exact main (some f) none f h
    · rw [licLoop] at h
      exact main (some (equalize2 f t).1) (some (equalize2 f t).2)
        (blendL (round2 (((s : ℚ) + 1) * x)) (equalize2 f t).1 (equalize2 f t).2) h

theorem setLastEnd_get_fst (v : ℚ) : ∀ (l : List Cond) (j : ℕ) (hj : j < l.length),
    ((setLastEnd v l).get ⟨j, by rw [setLastEnd_length]; exact hj⟩).1 = (l.get ⟨j, hj⟩).1 := by
  intro l
  induction l with
  | nil => intro j hj; exact absurd hj (by simp)
  | cons c t ih =>
    intro j hj
    cases t with
    | nil =>
      match j, hj with
      | 0, _ => rfl
    | cons c' t' =>
      match j, hj with
      | 0, _ => rfl
      | j + 1, hj =>
        have hj' : j < (c' :: t').length := by simpa using hj
        simp only [setLastEnd, List.get_cons_succ]
        exact ih j hj'

theorem setLastEnd_get_end (v : ℚ) : ∀ (l : List Cond) (j : ℕ) (hj : j < l.length),
    ((setLastEnd v l).get ⟨j, by rw [setLastEnd_length]; exact hj⟩).2.end_percent =
      if j = l.length - 1 then some v else (l.get ⟨j, hj⟩).2.end_percent := by
  intro l
  induction l with
  | nil => intro j hj; exact absurd hj (by simp)
  | cons c t ih =>
    intro j hj
    cases t with
    | nil =>
      match j, hj with
      | 0, _ => rfl
    | cons c' t' =>
      match j, hj with
      | 0, _ =>
        simp only [setLastEnd]
        rw [if_neg (by simp)]
        rfl
      | j + 1, hj =>
        have hj' : j < (c' :: t').length := by simpa using hj
        simp only [setLastEnd, List.get_cons_succ]
        rw [ih j hj']
        by_cases hje : j = (c' :: t').length - 1
        · rw [if_pos hje, if_pos (by simp at hje ⊢; omega)]
        · rw [if_neg hje, if_neg (by simp at hje ⊢; omega)]

/-- `licIdx` at the claim C4 parameters (`from 0 to 1, step 0.1`, window
`[0, 1]`): on success exactly ten segments, ends `0.1 .. 1.0`, tensors
blended with factor `round((j+1)/11, 2)`. -/
theorem licIdx_ten (ps : String) (a b : Cond) (np : Option (List ℚ)) (res : List Cond)
    (np' : Option (List ℚ))
    (h : licIdx 0 1 (1/10) 0 1 ps a b np = .ok (res, np')) :
    res.length = 10 ∧
    ∀ j (hj : j < res.length),
      (res.get ⟨j, hj⟩).2.end_percent = some (((j : ℚ) + 1) / 10) ∧
      (res.get ⟨j, hj⟩).1 = blendL (round2 (((j : ℚ) + 1) * (1/11)))
        (equalize2 a.1 b.1).1 (equalize2 a.1 b.1).2 := by
  rw [licIdx] at h
  rw [show ((1 : ℚ) - 0) / (1/10) = ((10 : ℤ) : ℚ) from by norm_num] at h
  rw [show ((0 : ℚ) - 0) / (1/10) = ((0 : ℤ) : ℚ) from by norm_num] at h
  rw [rhe_int, rhe_int] at h
  rw [show ((10 : ℤ) - 0).toNat = 10 from rfl] at h
  rcases hL : licLoop (equalize2 a.1 b.1).1 (equalize2 a.1 b.1).2 (1 / (((10 : ℤ) : ℚ) + 1))
      (1/10) a.2 ps 10 0 0 a.2.pooled_output b.2.pooled_output np with er | ⟨res0, stf⟩
  · rw [hL] at h
    exact absurd h (by simp [licIdxPost])
  · rw [hL] at h
    obtain ⟨hlen0, hidx0⟩ := licLoop_ok _ _ _ _ _ _ _ _ _ _ _ _ _ _ hL
    have hne : res0.isEmpty = false := by
      cases res0 with
      | nil => simp at hlen0
      | cons u v => rfl
    simp only [licIdxPost, hne, Bool.false_eq_true, if_false, Except.ok.injEq,
      Prod.mk.injEq] at h
    obtain ⟨hres, hnp⟩ := h
    subst hres
    refine ⟨by rw [setLastEnd_length]; exact hlen0, ?_⟩
    intro j hj
    have hj0 : j < res0.length := by rwa [setLastEnd_length] at hj
    obtain ⟨htens, hend⟩ := And.intro (hidx0 j hj0).1 (hidx0 j hj0).2
    have hjlt : j < 10 := by omega
    have hendval : (res0.get ⟨j, hj0⟩).2.end_percent = some (((j : ℚ) + 1) / 10) := by
      rw [hend]
      have hp0 : pctIter (1/10) 0 j = ((j : ℤ) : ℚ) / 10 := by
        have := pctIter_tenth j 0
        norm_num at this
        rw [show (0 : ℚ) = ((0 : ℤ) : ℚ) / 10 from by norm_num]
        rw [pctIter_tenth j 0]
        push_cast
        ring
      rw [hp0]
      have hr : round2 (((j : ℤ) : ℚ) / 10 + 1/10) = ((j + 1 : ℤ) : ℚ) / 10 := by
        rw [show (((j : ℤ) : ℚ) / 10 + 1/10) = ((j + 1 : ℤ) : ℚ) / 10 from by push_cast; ring]
        exact round2_div10 (j + 1)
      rw [hr]
      have hle : ((j + 1 : ℤ) : ℚ) / 10 ≤ 1 := by
        rw [div_le_one (by norm_num)]
        push_cast
        have : (j : ℚ) ≤ 9 := by exact_mod_cast Nat.lt_succ_iff.mp hjlt
        linarith
      rw [min_eq_left hle]
      push_cast
      ring_nf
    constructor
    · rw [setLastEnd_get_end (round2 1) res0 j hj0]
      by_cases hje : j = res0.length - 1
      · rw [if_pos hje, round2_one]
        have hj9 : j = 9 := by omega
        subst hj9
        norm_num
      · rw [if_neg hje]
        exact hendval
    · rw [setLastEnd_get_fst (round2 1) res0 j hj0]
      rw [htens]
      congr 2
      push_cast
      ring

theorem setLastEnd_getLast_end (v : ℚ) :
    ∀ (l : List Cond) (c : Cond), (setLastEnd v l).getLast? = some c →
      c.2.end_percent = some v := by
  intro l
  induction l with
  | nil => intro c h; simp [setLastEnd] at h
  | cons c0 t ih =>
    intro c h
    cases t with
    | nil =>
      simp only [setLastEnd, List.getLast?_singleton] at h
      injection h with h
      subst h
      rfl
    | cons c1 t' =>
      rw [setLastEnd] at h
      have hX : (setLastEnd v (c1 :: t')).getLast? ≠ none := by
        intro hn
        rw [List.getLast?_eq_none_iff] at hn
        cases t' <;> simp [setLastEnd] at hn
      rcases ho : (setLastEnd v (c1 :: t')).getLast? with _ | cx
      · exact absurd ho hX
      have hco : (c0 :: setLastEnd v (c1 :: t')).getLast? = some cx := by
        rw [show (c0 :: setLastEnd v (c1 :: t')) = [c0] ++ setLastEnd v (c1 :: t') from rfl,
          List.getLast?_append, ho]
        rfl
      rw [hco] at h
      injection h with h
      subst h
      exact ih cx ho

theorem licIdxPost_last_end (ea : ℚ)
    (r : Except String (List Cond × (Option (List ℚ) × Option (List ℚ) × Option (List ℚ))))
    (res : List Cond) (np' : Option (List ℚ)) (h : licIdxPost ea r = .ok (res, np'))
    (c : Cond) (hlast : res.getLast? = some c) : c.2.end_percent = some (round2 ea) := by
  rcases r with er | ⟨res0, stf⟩
  · simp [licIdxPost] at h
  · simp only [licIdxPost] at h
    by_cases he : res0.isEmpty
    · rw [if_pos he] at h
      injection h with h1
      injection h1 with h2 h3
      subst h2
      simp at hlast
    · rw [if_neg he] at h
      injection h with h1
      injection h1 with h2 h3
      subst h2
      exact setLastEnd_getLast_end (round2 ea) res0 c hlast

theorem licIdx_last_end (fs ts st sa ea : ℚ) (ps : String) (a b : Cond)
    (np : Option (List ℚ)) (res : List Cond) (np' : Option (List ℚ))
    (h : licIdx fs ts st sa ea ps a b np = .ok (res, np'))
    (c : Cond) (hlast : res.getLast? = some c) : c.2.end_percent = some (round2 ea) := by
  rw [licIdx] at h
  exact licIdxPost_last_end ea _ res np' h c hlast

/-- Every non-empty result of the per-index loop ends with `round(end_at, 2)`,
so the same holds for the whole concatenation. -/
theorem licPairs_last_end (fs ts st sa ea : ℚ) (ps : String) :
    ∀ (pairs : List (Cond × Cond)) (np : Option (List ℚ)) (l : List Cond) (c : Cond),
    licPairs fs ts st sa ea ps pairs np = .ok l → l.getLast? = some c →
    c.2.end_percent = some (round2 ea) := by
  intro pairs
  induction pairs with
  | nil =>
    intro np l c h hlast
    simp only [licPairs] at h
    injection h with h
    subst h
    simp at hlast
  | cons p rest ih =>
    intro np l c h hlast
    rw [licPairs] at h
    rcases hIdx : licIdx fs ts st sa ea ps p.1 p.2 np with er | ⟨res, np1⟩
    · rw [hIdx] at h
      exact absurd h (by simp)
    rw [hIdx] at h
    dsimp only at h
    rcases hRest : licPairs fs ts st sa ea ps rest np1 with er | more
    · rw [hRest] at h
      exact absurd h (by simp)
    rw [hRest] at h
    injection h with h
    subst h
    rw [List.getLast?_append] at hlast
    rcases hm : more.getLast? with _ | cm
    · rw [hm] at hlast
      simp only [Option.none_or] at hlast
      exact licIdx_last_end fs ts st sa ea ps p.1 p.2 np res np1 hIdx c hlast
    · rw [hm] at hlast
      simp only [Option.or_some] at hlast
      injection hlast with hlast
      subst hlast
      exact ih np1 more cm hRest hm

/-- Block structure of `licPairs` at the claim C4 parameters: ten segments per
pair, ends `0.1 .. 1.0` within each block, tensors blended with factor
`round((j+1)/11, 2)` from the equalized pair at the block's index. -/
theorem licPairs_c4_blocks (ps : String) :
    ∀ (pairs : List (Cond × Cond)) (np : Option (List ℚ)) (l : List Cond),
    licPairs 0 1 (1/10) 0 1 ps pairs np = .ok l →
    l.length = 10 * pairs.length ∧
    ∀ i seg, l[i]? = some seg →
      ∃ pr, pairs[i / 10]? = some pr ∧
        seg.2.end_percent = some ((((i % 10 : ℕ) : ℚ) + 1) / 10) ∧
        seg.1 = blendL (round2 ((((i % 10 : ℕ) : ℚ) + 1) * (1/11)))
          (equalize2 pr.1.1 pr.2.1).1 (equalize2 pr.1.1 pr.2.1).2 := by
  intro pairs
  induction pairs with
  | nil =>
    intro np l h
    simp only [licPairs] at h
    injection h with h
    subst h
    exact ⟨rfl, fun i seg hseg => absurd hseg (by simp)⟩
  | cons p rest ih =>
    intro np l h
    rw [licPairs] at h
    rcases hIdx : licIdx 0 1 (1/10) 0 1 ps p.1 p.2 np with er | ⟨res, np1⟩
    · rw [hIdx] at h
      exact absurd h (by simp)
    rw [hIdx] at h
    dsimp only at h
    rcases hRest : licPairs 0 1 (1/10) 0 1 ps rest np1 with er | more
    · rw [hRest] at h
      exact absurd h (by simp)
    rw [hRest] at h
    injection h with h
    subst h
    obtain ⟨hlen, hjd⟩ := licIdx_ten ps p.1 p.2 np res np1 hIdx
    obtain ⟨hlenR, hidxR⟩ := ih np1 more hRest
    constructor
    · simp only [List.length_append, hlen, hlenR, List.length_cons]
      ring
    · intro i seg hseg
      by_cases hi : i < 10
      · have hl : i < res.length := by omega
        rw [List.getElem?_append_left hl] at hseg
        rw [List.getElem?_eq_getElem hl] at hseg
        injection hseg with hseg
        have hid : i / 10 = 0 := by omega
        have him : i % 10 = i := by omega
        obtain ⟨hend, htens⟩ := hjd i hl
        simp only [List.get_eq_getElem] at hend htens
        rw [hseg] at hend htens
        refine ⟨p, by rw [hid]; simp, ?_, ?_⟩
        · rw [him]
          exact hend
        · rw [him]
          exact htens
      · have hge : res.length ≤ i := by omega
        rw [List.getElem?_append_right hge] at hseg
        rw [hlen] at hseg
        obtain ⟨pr, hpr, hend, htens⟩ := hidxR (i - 10) seg hseg
        have hid : i / 10 = (i - 10) / 10 + 1 := by omega
        have him : i % 10 = (i - 10) % 10 := by omega
        refine ⟨pr, ?_, ?_, ?_⟩
        · rw [hid, List.getElem?_cons_succ]
          exact hpr
        · rw [him]
          exact hend
        · rw [him]
          exact htens

/-- Claim C4 (amended): over `from_step = 0, to_step = 1, step = 0.1` with
defaulted window, a successful call emits exactly ten segments per paired
index with `end_percent` values `0.1, 0.2, ..., 1.0` and blend factor
`round((s+1) * 1/(total_steps+1), 2)` at step `s`; and the final emitted
segment of every successful call carries `end_percent = round(end_at, 2)`
(the code rounds `end_at` to two decimals, so it equals the requested
`end_at` exactly only when `end_at` has at most two decimal places). -/
theorem linear_interpolate_cond_ten_segments :
    (∀ (start end_ : List Cond) (l : List Cond),
      start.length = end_.length →
      linear_interpolate_cond start end_ 0 1 (1/10) none none "N/A" = .ok l →
      l.length = 10 * start.length ∧
      ∀ i seg, l[i]? = some seg →
        seg.2.end_percent = some ((((i % 10 : ℕ) : ℚ) + 1) / 10) ∧
        ∃ a b, start[i / 10]? = some a ∧ end_[i / 10]? = some b ∧
          seg.1 = blendL (round2 ((((i % 10 : ℕ) : ℚ) + 1) * (1 / 11)))
            (equalize2 a.1 b.1).1 (equalize2 a.1 b.1).2) ∧
    (∀ (start end_ : List Cond) (fs ts st : ℚ) (sa ea : Option ℚ) (ps : String)
      (l : List Cond) (c : Cond),
      linear_interpolate_cond start end_ fs ts st sa ea ps = .ok l →
      l.getLast? = some c →
      c.2.end_percent = some (round2 (ea.getD ts))) := by
  constructor
  · intro start end_ l hlen h
    rw [linear_interpolate_cond] at h
    simp only [Option.getD_none] at h
    obtain ⟨hl, hidx⟩ := licPairs_c4_blocks "N/A" (List.zip start end_) none l h
    constructor
    · rw [hl, List.length_zip, hlen, min_self]
    · intro i seg hseg
      obtain ⟨pr, hpr, hend, htens⟩ := hidx i seg hseg
      obtain ⟨h1, h2⟩ := List.getElem?_zip_eq_some.mp hpr
      exact ⟨hend, pr.1, pr.2, h1, h2, htens⟩
  · intro start end_ fs ts st sa ea ps l c h hlast
    rw [linear_interpolate_cond] at h
    exact licPairs_last_end fs ts st (sa.getD fs) (ea.getD ts) ps
      (List.zip start end_) none l c h hlast

/-- The inner loop never raises when both sides carry a pooled output. -/
theorem licLoop_both_isOk (fc tc : List ℚ) (x step : ℚ) (bm : Meta) (ps : String) :
    ∀ (k : ℕ) (s : ℤ) (pct : ℚ) (f0 t0 : List ℚ) (np : Option (List ℚ)),
    (licLoop fc tc x step bm ps k s pct (some f0) (some t0) np).isOk = true := by
  intro k
  induction k with
  | zero => intro s pct f0 t0 np; rfl
  | succ k ih =>
    intro s pct f0 t0 np
    have hrec := ih (s + 1) (round2 (pct + step)) (equalize2 f0 t0).1 (equalize2 f0 t0).2
      (some (blendL (round2 (((s : ℚ) + 1) * x)) (equalize2 f0 t0).1 (equalize2 f0 t0).2))
    rcases hr : licLoop fc tc x step bm ps k (s + 1) (round2 (pct + step))
        (some (equalize2 f0 t0).1) (some (equalize2 f0 t0).2)
        (some (blendL (round2 (((s : ℚ) + 1) * x)) (equalize2 f0 t0).1 (equalize2 f0 t0).2))
      with er | ⟨rest, stf⟩
    · rw [hr] at hrec
      simp [Except.isOk, Except.toBool] at hrec
    · rw [licLoop]
      dsimp only
      rw [hr]
      rfl

/-- When both pooled inputs are the same tensor, every emitted segment's
pooled output is that tensor (blending a tensor with itself is the
identity). -/
theorem licLoop_self_pooled (fc tc : List ℚ) (x step : ℚ) (bm : Meta) (ps : String)
    (pl : List ℚ) :
    ∀ (k : ℕ) (s : ℤ) (pct : ℚ) (np : Option (List ℚ)) res stf,
    licLoop fc tc x step bm ps k s pct (some pl) (some pl) np = .ok (res, stf) →
    ∀ c ∈ res, c.2.pooled_output = some pl := by
  intro k
  induction k with
  | zero =>
    intro s pct np res stf h
    simp only [licLoop] at h
    injection h with h1
    injection h1 with h2 h3
    subst h2
    intro c hc
    simp at hc
  | succ k ih =>
    intro s pct np res stf h
    rw [licLoop] at h
    dsimp only at h
    rw [equalize2_self] at h
    dsimp only at h
    rw [blendL_self] at h
    rcases hrec : licLoop fc tc x step bm ps k (s + 1) (round2 (pct + step))
        (some pl) (some pl) (some pl) with er | ⟨rest, stf'⟩
    · rw [hrec] at h
      exact absurd h (by simp)
    · rw [hrec] at h
      simp only [Except.ok.injEq, Prod.mk.injEq] at h
      obtain ⟨hres, hstf⟩ := h
      subst hres
      intro c hc
      rcases List.mem_cons.mp hc with hc0 | hcr
      · subst hc0
        rfl
      · exact ih (s + 1) (round2 (pct + step)) (some pl) rest stf' hrec c hcr

/-- `licPairs` succeeds whenever every pair carries pooled outputs on both
sides. -/
theorem licPairs_some_ok (fs ts st sa ea : ℚ) (ps : String) :
    ∀ (pairs : List (Cond × Cond)) (np : Option (List ℚ)),
    (∀ pr ∈ pairs, pr.1.2.pooled_output.isSome ∧ pr.2.2.pooled_output.isSome) →
    ∃ l, licPairs fs ts st sa ea ps pairs np = .ok l := by
  intro pairs
  induction pairs with
  | nil => intro np _; exact ⟨[], rfl⟩
  | cons p rest ih =>
    intro np hall
    obtain ⟨hp1, hp2⟩ := hall p (List.mem_cons_self p rest)
    obtain ⟨f0, hf0⟩ := Option.isSome_iff_exists.mp hp1
    obtain ⟨t0, ht0⟩ := Option.isSome_iff_exists.mp hp2
    obtain ⟨res0, stf0, hloop⟩ : ∃ res0 stf0,
        licLoop (equalize2 p.1.1 p.2.1).1 (equalize2 p.1.1 p.2.1).2
          (1 / ((rhe ((ts - fs) / st) : ℚ) + 1)) st p.1.2 ps
          (rhe ((ea - fs) / st) - rhe ((sa - fs) / st)).toNat (rhe ((sa - fs) / st)) sa
          (some f0) (some t0) np = .ok (res0, stf0) := by
      have hok := licLoop_both_isOk (equalize2 p.1.1 p.2.1).1 (equalize2 p.1.1 p.2.1).2
        (1 / ((rhe ((ts - fs) / st) : ℚ) + 1)) st p.1.2 ps
        (rhe ((ea - fs) / st) - rhe ((sa - fs) / st)).toNat (rhe ((sa - fs) / st)) sa f0 t0 np
      rcases hr : licLoop (equalize2 p.1.1 p.2.1).1 (equalize2 p.1.1 p.2.1).2
          (1 / ((rhe ((ts - fs) / st) : ℚ) + 1)) st p.1.2 ps
          (rhe ((ea - fs) / st) - rhe ((sa - fs) / st)).toNat (rhe ((sa - fs) / st)) sa
          (some f0) (some t0) np with er | ⟨res0, stf0⟩
      · rw [hr] at hok
        simp [Except.isOk, Except.toBool] at hok
      · exact ⟨res0, stf0, rfl⟩
    have hIdx : ∃ res np1, licIdx fs ts st sa ea ps p.1 p.2 np = .ok (res, np1) := by
      rw [licIdx, hf0, ht0, hloop]
      by_cases he : res0.isEmpty
      · exact ⟨[], stf0.2.2, by simp [licIdxPost, he]⟩
      · exact ⟨setLastEnd (round2 ea) res0, stf0.2.2, by simp [licIdxPost, he]⟩
    obtain ⟨res, np1, hIdx⟩ := hIdx
    obtain ⟨more, hmore⟩ := ih np1 (fun pr hpr => hall pr (List.mem_cons_of_mem p hpr))
    refine ⟨res ++ more, ?_⟩
    rw [licPairs, hIdx]
    dsimp only
    rw [hmore]

/-- Pooled outputs survive a self-interpolation: each emitted segment of a
block carries the pooled output of its block's pair. -/
theorem licPairs_self_pooled (ps : String) :
    ∀ (pairs : List (Cond × Cond)) (np : Option (List ℚ)) (l : List Cond),
    licPairs 0 1 (1/10) 0 1 ps pairs np = .ok l →
    (∀ pr ∈ pairs, ∃ pl, pr.1.2.pooled_output = some pl ∧ pr.2.2.pooled_output = some pl) →
    ∀ i seg, l[i]? = some seg →
      ∃ pr, pairs[i / 10]? = some pr ∧ seg.2.pooled_output = pr.1.2.pooled_output := by
  intro pairs
  induction pairs with
  | nil =>
    intro np l h _hall i seg hseg
    simp only [licPairs] at h
    injection h with h
    subst h
    simp at hseg
  | cons p rest ih =>
    intro np l h hall i seg hseg
    rw [licPairs] at h
    rcases hIdx : licIdx 0 1 (1/10) 0 1 ps p.1 p.2 np with er | ⟨res, np1⟩
    · rw [hIdx] at h
      exact absurd h (by simp)
    rw [hIdx] at h
    dsimp only at h
    rcases hRest : licPairs 0 1 (1/10) 0 1 ps rest np1 with er | more
    · rw [hRest] at h
      exact absurd h (by simp)
    rw [hRest] at h
    injection h with h
    subst h
    obtain ⟨pl, hpl1, hpl2⟩ := hall p (List.mem_cons_self p rest)
    have hresP : ∀ c ∈ res, c.2.pooled_output = some pl := by
      rw [licIdx, hpl1, hpl2] at hIdx
      rcases hL : licLoop (equalize2 p.1.1 p.2.1).1 (equalize2 p.1.1 p.2.1).2
          (1 / ((rhe ((1 - 0) / (1/10)) : ℚ) + 1)) (1/10) p.1.2 ps
          (rhe ((1 - 0) / (1/10)) - rhe ((0 - 0) / (1/10))).toNat (rhe ((0 - 0) / (1/10))) 0
          (some pl) (some pl) np with er | ⟨res0, stf0⟩
      · rw [hL] at hIdx
        exact absurd hIdx (by simp [licIdxPost])
      · rw [hL] at hIdx
        have hP0 := licLoop_self_pooled _ _ _ _ _ _ _ _ _ _ _ _ _ hL
        simp only [licIdxPost] at hIdx
        by_cases he : res0.isEmpty
        · rw [if_pos he] at hIdx
          injection hIdx with h1
          injection h1 with h2 h3
          subst h2
          intro c hc
          simp at hc
        · rw [if_neg he] at hIdx
          injection hIdx with h1
          injection h1 with h2 h3
          subst h2
          intro c hc
          have hmem : (c.1, c.2.pooled_output) ∈
              (setLastEnd (round2 1) res0).map (fun c => (c.1, c.2.pooled_output)) :=
            List.mem_map_of_mem _ hc
          rw [setLastEnd_tensor_pooled] at hmem
          obtain ⟨c0, hc0, heq⟩ := List.mem_map.mp hmem
          have := hP0 c0 hc0
          have hsnd : c0.2.pooled_output = c.2.pooled_output := congrArg Prod.snd heq
          rw [← hsnd, this]
    obtain ⟨hlen, _⟩ := licIdx_ten ps p.1 p.2 np res np1 hIdx
    by_cases hi : i < 10
    · have hl : i < res.length := by omega
      rw [List.getElem?_append_left hl] at hseg
      have hmem : seg ∈ res := by
        rw [List.getElem?_eq_getElem hl] at hseg
        injection hseg with hseg
        rw [← hseg]
        exact List.getElem_mem hl
      have hid : i / 10 = 0 := by omega
      refine ⟨p, by rw [hid]; simp, ?_⟩
      rw [hresP seg hmem, hpl1]
    · have hge : res.length ≤ i := by omega
      rw [List.getElem?_append_right hge] at hseg
      rw [hlen] at hseg
      obtain ⟨pr, hpr, hpool⟩ := ih np1 more hRest
        (fun pr hpr => hall pr (List.mem_cons_of_mem p hpr)) (i - 10) seg hseg
      have hid : i / 10 = (i - 10) / 10 + 1 := by omega
      refine ⟨pr, ?_, hpool⟩
      rw [hid, List.getElem?_cons_succ]
      exact hpr

theorem zip_self_eq_map (A : List Cond) : List.zip A A = A.map (fun a => (a, a)) := by
  induction A with
  | nil => rfl
  | cons a t ih => simp [List.zip_cons_cons, ih, List.zip]

/-- Claim C8: interpolating a conditioning list with itself (all entries
carrying a pooled output) emits segments whose tensors and pooled outputs
equal those of the corresponding entry: the blend
`from + (to - from) * factor` is the identity on a zero delta. -/
theorem linear_interpolate_cond_self_id (A : List Cond)
    (hp : ∀ a ∈ A, a.2.pooled_output.isSome) :
    ∃ l, linear_interpolate_cond A A 0 1 (1/10) none none "N/A" = .ok l ∧
      l.length = 10 * A.length ∧
      ∀ i seg, l[i]? = some seg →
        ∃ a, A[i / 10]? = some a ∧ seg.1 = a.1 ∧
          seg.2.pooled_output = a.2.pooled_output := by
  have hAA := zip_self_eq_map A
  have hzmem : ∀ pr ∈ List.zip A A, pr.1 = pr.2 ∧ pr.1 ∈ A := by
    intro pr hpr
    rw [hAA] at hpr
    obtain ⟨a, ha, heq⟩ := List.mem_map.mp hpr
    subst heq
    exact ⟨rfl, ha⟩
  obtain ⟨l, hok⟩ := licPairs_some_ok 0 1 (1/10) 0 1 "N/A" (List.zip A A) none
    (fun pr hpr => by
      obtain ⟨he, hm⟩ := hzmem pr hpr
      exact ⟨hp pr.1 hm, he ▸ hp pr.1 hm⟩)
  refine ⟨l, ?_, ?_, ?_⟩
  · rw [linear_interpolate_cond]
    simpa using hok
  · obtain ⟨hl, _⟩ := licPairs_c4_blocks "N/A" (List.zip A A) none l hok
    rw [hl, List.length_zip, min_self]
  · intro i seg hseg
    obtain ⟨_, hidx⟩ := licPairs_c4_blocks "N/A" (List.zip A A) none l hok
    obtain ⟨pr, hpr, _, htens⟩ := hidx i seg hseg
    obtain ⟨h1, h2⟩ := List.getElem?_zip_eq_some.mp hpr
    have hprA : pr.1 = pr.2 ∧ pr.1 ∈ A := hzmem pr (List.getElem?_mem hpr)
    obtain ⟨hpool⟩ := And.intro (licPairs_self_pooled "N/A" (List.zip A A) none l hok
      (fun pr' hpr' => by
        obtain ⟨he, hm⟩ := hzmem pr' hpr'
        obtain ⟨pl, hpl⟩ := Option.isSome_iff_exists.mp (hp pr'.1 hm)
        exact ⟨pl, hpl, by rw [← he, hpl]⟩) i seg hseg) trivial
    obtain ⟨pr', hpr', hpool'⟩ := hpool
    rw [hpr] at hpr'
    injection hpr' with hpr'
    refine ⟨pr.1, h1, ?_, ?_⟩
    · rw [htens]
      rw [hprA.1] at htens ⊢
      rw [← hprA.1, equalize2_self]
      exact blendL_self _ _
    · rw [hpr']
      exact hpool'

/-- Claim C10: when the first paired entries on both sides lack a
`pooled_output` and the step window makes the inner loop run at least once,
`linear_interpolate_cond` raises the unbound-local error instead of
returning. -/
theorem linear_interpolate_cond_unbound_pooled (start end_ : List Cond)
    (fs ts st : ℚ) (sa ea : Option ℚ) (ps : String) (c1 c2 : Cond)
    (h1 : start.head? = some c1) (h2 : end_.head? = some c2)
    (hp1 : c1.2.pooled_output = none) (hp2 : c2.2.pooled_output = none)
    (hrun : rhe ((sa.getD fs - fs) / st) < rhe ((ea.getD ts - fs) / st)) :
    linear_interpolate_cond start end_ fs ts st sa ea ps =
      .error "UnboundLocalError: new_pooled" := by
  cases start with
  | nil => simp at h1
  | cons a t =>
    cases end_ with
    | nil => simp at h2
    | cons b t' =>
      simp only [List.head?] at h1 h2
      injection h1 with h1e
      injection h2 with h2e
      subst h1e
      subst h2e
      simp only [linear_interpolate_cond, List.zip, List.zipWith, licPairs]
      rw [licIdx_err_of_no_pooled fs ts st (sa.getD fs) (ea.getD ts) ps a b hp1 hrun]

/-! ## Claim C3: area and mask unit validation -/

theorem area_from_floats_mixed (x w y h wt : ℚ)
    (h1 : ¬([h, w, y, x].all is_pct = true)) (h2 : ¬([h, w, y, x].all is_pixel = true)) :
    area_from_floats x w y h wt = .error "AREA specified with invalid size" := by
  rw [area_from_floats, if_neg h1, if_neg h2]

theorem area_from_floats_valid (x w y h wt : ℚ)
    (hv : ([h, w, y, x].all is_pct = true) ∨ ([h, w, y, x].all is_pixel = true)) :
    ∃ v, area_from_floats x w y h wt = .ok v := by
  rcases hv with hp | hx
  · rw [area_from_floats, if_pos hp]
    exact ⟨_, rfl⟩
  · by_cases hp : [h, w, y, x].all is_pct = true
    · rw [area_from_floats, if_pos hp]
      exact ⟨_, rfl⟩
    · rw [area_from_floats, if_neg hp, if_pos hx]
      exact ⟨_, rfl⟩

theorem area_from_floats_pixel (x w y h wt : ℚ)
    (hx : [h, w, y, x].all is_pixel = true) (hp : ¬([h, w, y, x].all is_pct = true)) :
    area_from_floats x w y h wt = .ok (.pixel ((pyTrunc h).fdiv 8) ((pyTrunc w).fdiv 8)
      ((pyTrunc y).fdiv 8) ((pyTrunc x).fdiv 8), wt) := by
  rw [area_from_floats, if_neg hp, if_pos hx]

theorem mask_from_floats_mixed (x1 x2 y1 y2 wt : ℚ) (size : ℤ × ℤ)
    (h1 : ¬([x1, x2, y1, y2].all is_pct = true))
    (h2 : ¬([x1, x2, y1, y2].all is_pixel = true)) :
    mask_from_floats x1 x2 y1 y2 wt size = .error "MASK specified with invalid size" := by
  simp only [mask_from_floats]
  rw [if_neg h1, if_neg h2]

theorem mask_from_floats_valid (x1 x2 y1 y2 wt : ℚ) (size : ℤ × ℤ)
    (hv : ([x1, x2, y1, y2].all is_pct = true) ∨ ([x1, x2, y1, y2].all is_pixel = true)) :
    ∃ v, mask_from_floats x1 x2 y1 y2 wt size = .ok v := by
  simp only [mask_from_floats]
  rcases hv with hp | hx
  · rw [if_pos hp]
    exact ⟨_, rfl⟩
  · by_cases hp : [x1, x2, y1, y2].all is_pct = true
    · rw [if_pos hp]
      exact ⟨_, rfl⟩
    · rw [if_neg hp, if_pos hx]
      exact ⟨_, rfl⟩

/-! ## Claim C9: the interpolator driver matches its spec description -/

theorem liGo_eq_spec (o_start o_end step start_pct end_pct : ℚ) :
    ∀ (rest : List (ℚ × List Cond)) (prev : ℚ × List Cond) (conds : List Cond),
    liGo o_start o_end step start_pct end_pct rest prev conds =
      (liSpecGo o_start o_end step start_pct end_pct (List.zip (prev :: rest) rest)).map
        (fun r => conds ++ r) := by
  intro rest
  induction rest with
  | nil =>
    intro prev conds
    simp [liGo, liSpecGo, List.zip, Except.map]
  | cons te rest ih =>
    intro prev conds
    rw [show List.zip (prev :: te :: rest) (te :: rest) =
      (prev, te) :: List.zip (te :: rest) rest from rfl]
    rw [liGo, liSpecGo]
    by_cases h1 : prev.1 < start_pct
    · rw [if_pos h1, if_pos h1]
      exact ih te conds
    · rw [if_neg h1, if_neg h1]
      by_cases h2 : end_pct ≤ prev.1
      · rw [if_pos h2, if_pos h2]
        simp [Except.map]
      · rw [if_neg h2, if_neg h2]
        rcases hlic : linear_interpolate_cond prev.2 te.2 o_start o_end step (some prev.1)
            (some end_pct) "N/A" with er | cs
        · rfl
        · dsimp only
          by_cases hcs : cs.isEmpty
          · rw [if_pos hcs, if_pos hcs]
            simp [Except.map]
          · rw [if_neg hcs, if_neg hcs]
            rw [ih te (conds ++ cs)]
            rcases hs : liSpecGo o_start o_end step start_pct end_pct
                (List.zip (te :: rest) rest) with er | more
            · rfl
            · simp [Except.map, List.append_assoc]

/-- Claim C9: `linear_interpolator` walks consecutive control-point pairs in
order, skipping pairs starting below `start_pct`, stopping at the first pair
starting at or after `end_pct`, concatenating the in-range pairs' outputs,
and abandoning the rest as soon as an in-range pair yields no segments —
exactly the reference recursion `linear_interpolator_spec` written from the
spec's description. -/
theorem linear_interpolator_eq_spec (cps : List (ℚ × List Cond))
    (step start_pct end_pct : ℚ) :
    linear_interpolator cps step start_pct end_pct =
      linear_interpolator_spec cps step start_pct end_pct := by
  cases cps with
  | nil => rfl
  | cons c0 rest =>
    rw [linear_interpolator, linear_interpolator_spec]
    rw [liGo_eq_spec]
    rcases hs : liSpecGo c0.1 (rest.getLastD c0).1 step start_pct end_pct
        (List.zip (c0 :: rest) rest) with er | more
    · rfl
    · simp [Except.map]

/-! ## Claim C5: at most one encode per distinct cache key -/

theorem alookup_append_some {α : Type} (k : String) (v : α) :
    ∀ (l l' : List (String × α)), alookup k l = some v → alookup k (l ++ l') = some v := by
  intro l l'
  induction l with
  | nil => intro h; simp [alookup] at h
  | cons p rest ih =>
    intro h
    rw [alookup] at h
    rw [List.cons_append, alookup]
    by_cases hk : p.1 = k
    · rwa [if_pos hk] at h ⊢
    · rw [if_neg hk] at h ⊢
      exact ih h

theorem alookup_append_self {α : Type} (k : String) (v : α) :
    ∀ (l : List (String × α)), alookup k l = none → alookup k (l ++ [(k, v)]) = some v := by
  intro l
  induction l with
  | nil => intro _; simp [alookup]
  | cons p rest ih =>
    intro h
    rw [alookup] at h
    rw [List.cons_append, alookup]
    by_cases hk : p.1 = k
    · rw [if_pos hk] at h
      exact absurd h (by simp)
    · rw [if_neg hk] at h ⊢
      exact ih h

theorem encodeSt_inv_core {Clip : Type} (doEnc : Clip → String → Except String (List Cond))
    (c : SegmentConfig) (st st1 : OrchState Clip)
    (hcc : st1.cond_cache = st.cond_cache) (hel : st1.encodeLog = st.encodeLog)
    (h : Inv st) (hl : alookup (c_str c) st.cond_cache = none) :
    Inv (match doEnc st1.clip c.prompt with
      | .error e => (st1, Except.error e)
      | .ok v =>
        ({ st1 with cond_cache := st1.cond_cache ++ [(c_str c, v)],
                    encodeLog := st1.encodeLog ++ [c] }, Except.ok v)).1 := by
  rcases doEnc st1.clip c.prompt with er | v
  · simp only [Inv] at h ⊢
    rw [hcc, hel]
    exact h
  · simp only [Inv] at h ⊢
    rw [hcc, hel]
    constructor
    · rw [List.map_append, List.nodup_append]
      refine ⟨h.1, by simp, ?_⟩
      intro k hk hk'
      simp only [List.map_cons, List.map_nil, List.mem_singleton] at hk'
      subst hk'
      obtain ⟨c', hc', hcs⟩ := List.mem_map.mp hk
      obtain ⟨v', hv'⟩ := h.2 c' hc'
      rw [hcs] at hv'
      rw [hv'] at hl
      exact absurd hl (by simp)
    · intro c' hc'
      rcases List.mem_append.mp hc' with hmem | hmem
      · obtain ⟨v', hv'⟩ := h.2 c' hmem
        exact ⟨v', alookup_append_some _ _ _ _ hv'⟩
      · simp only [List.mem_singleton] at hmem
        subst hmem
        exact ⟨v, alookup_append_self _ _ _ hl⟩

theorem encodeSt_inv {Clip : Type} (doEnc : Clip → String → Except String (List Cond))
    (orig_clip : Clip) (loadLora : Clip → List (String × ℚ) → Clip)
    (c : SegmentConfig) (st : OrchState Clip) (h : Inv st) :
    Inv (encodeSt doEnc orig_clip loadLora c st).1 := by
  rw [encodeSt]
  rcases hl : alookup (c_str c) st.cond_cache with _ | v
  · dsimp only
    by_cases hc : c.loras ≠ st.current_loras
    · rw [if_pos hc]
      exact encodeSt_inv_core doEnc c st
        { st with clip := loadLora orig_clip c.loras, current_loras := c.loras }
        rfl rfl h hl
    · rw [if_neg hc]
      exact encodeSt_inv_core doEnc c st st rfl rfl h hl
  · dsimp only
    exact h

theorem encodeAtSteps_inv {Clip : Type} (doEnc : Clip → String → Except String (List Cond))
    (orig_clip : Clip) (loadLora : Clip → List (String × ℚ) → Clip) (S : PromptSchedule) :
    ∀ (steps : List ℚ) (st : OrchState Clip), Inv st →
    Inv (encodeAtSteps doEnc orig_clip loadLora S steps st).1 := by
  intro steps
  induction steps with
  | nil => intro st h; exact h
  | cons s rest ih =>
    intro st h
    rw [encodeAtSteps]
    have h1 := encodeSt_inv doEnc orig_clip loadLora (at_step S s).2 st h
    rcases hr : encodeSt doEnc orig_clip loadLora (at_step S s).2 st with ⟨st1, r⟩
    rw [hr] at h1
    rcases r with er | v
    · exact h1
    · dsimp only
      have h2 := ih st1 h1
      rcases hrr : encodeAtSteps doEnc orig_clip loadLora S rest st1 with ⟨st2, rr⟩
      rw [hrr] at h2
      exact h2

theorem get_control_points_inv {Clip : Type} (doEnc : Clip → String → Except String (List Cond))
    (orig_clip : Clip) (loadLora : Clip → List (String × ℚ) → Clip) (S : PromptSchedule)
    (steps : List ℚ) (st : OrchState Clip) (h : Inv st) :
    Inv (get_control_points doEnc orig_clip loadLora S steps st).1 := by
  rw [get_control_points]
  by_cases hs : steps.length ≤ 1
  · rw [if_pos hs]
    exact h
  · rw [if_neg hs]
    exact encodeAtSteps_inv doEnc orig_clip loadLora S _ st h

theorem interpFold_inv {Clip : Type} (doEnc : Clip → String → Except String (List Cond))
    (orig_clip : Clip) (loadLora : Clip → List (String × ℚ) → Clip) (S : PromptSchedule)
    (min_step start_pct end_pct : ℚ) :
    ∀ (interps : List (List ℚ × ℚ)) (new_sp : ℚ) (st : OrchState Clip) (conds : List Cond),
    Inv st →
    Inv (interpFold doEnc orig_clip loadLora S min_step start_pct end_pct
      interps new_sp st conds).1 := by
  intro interps
  induction interps with
  | nil => intro new_sp st conds h; exact h
  | cons i rest ih =>
    intro new_sp st conds h
    rw [interpFold]
    have h1 := get_control_points_inv doEnc orig_clip loadLora S i.1 st h
    rcases hg : get_control_points doEnc orig_clip loadLora S i.1 st with ⟨st1, g⟩
    rw [hg] at h1
    rcases g with er | cps
    · exact h1
    · dsimp only
      rcases hli : linear_interpolator cps min_step (max (i.1.headD 0) start_pct)
          (min (i.1.getLastD 0) end_pct) with er | cs
      · exact h1
      · exact ih (max new_sp (min (i.1.getLastD 0) end_pct)) st1 (conds ++ cs) h1

theorem ctccLoop_inv {Clip : Type} (doEnc : Clip → String → Except String (List Cond))
    (orig_clip : Clip) (loadLora : Clip → List (String × ℚ) → Clip) (S : PromptSchedule) :
    ∀ (es : List (ℚ × SegmentConfig)) (sp : ℚ) (st : OrchState Clip) (conds : List Cond),
    Inv st →
    Inv (ctccLoop doEnc orig_clip loadLora S es sp st conds).1 := by
  intro es
  induction es with
  | nil => intro sp st conds h; exact h
  | cons e rest ih =>
    intro sp st conds h
    rw [ctccLoop]
    have hstep : ∀ (st1 : OrchState Clip) (r : Except String (List Cond × ℚ)),
        (match S.interpolations.filter (fun i =>
          (decide (sp ≥ i.1.headD 0) && decide (sp < i.1.getLastD 0)) ||
          (decide (e.1 > i.1.headD 0) && decide (sp < i.1.getLastD 0))) with
        | [] => (st, Except.ok (conds, sp))
        | i0 :: irest =>
          interpFold doEnc orig_clip loadLora S
            ((irest.map (fun i => i.2)).foldl min i0.2) sp e.1 (i0 :: irest) sp st conds) =
          (st1, r) → Inv st1 := by
      intro st1 r hm
      rcases hf : S.interpolations.filter (fun i =>
          (decide (sp ≥ i.1.headD 0) && decide (sp < i.1.getLastD 0)) ||
          (decide (e.1 > i.1.headD 0) && decide (sp < i.1.getLastD 0))) with _ | ⟨i0, irest⟩
      · rw [hf] at hm
        dsimp only at hm
        injection hm with h1 h2
        subst h1
        exact h
      · rw [hf] at hm
        dsimp only at hm
        have := interpFold_inv doEnc orig_clip loadLora S
          ((irest.map (fun i => i.2)).foldl min i0.2) sp e.1 (i0 :: irest) sp st conds h
        rw [hm] at this
        exact this
    rcases hs1 : (match S.interpolations.filter (fun i =>
        (decide (sp ≥ i.1.headD 0) && decide (sp < i.1.getLastD 0)) ||
        (decide (e.1 > i.1.headD 0) && decide (sp < i.1.getLastD 0))) with
      | [] => (st, Except.ok (conds, sp))
      | i0 :: irest =>
        interpFold doEnc orig_clip loadLora S
          ((irest.map (fun (i : List ℚ × ℚ) => i.2)).foldl min i0.2) sp e.1
          (i0 :: irest) sp st conds)
      with ⟨st1, r⟩
    have h1 : Inv st1 := hstep st1 r hs1
    rw [hs1]
    rcases r with er | ⟨conds1, sp1⟩
    · exact h1
    · dsimp only
      by_cases hlt : sp1 < e.1
      · rw [if_pos hlt]
        have h2 := encodeSt_inv doEnc orig_clip loadLora e.2 st1 h1
        rcases hr : encodeSt doEnc orig_clip loadLora e.2 st1 with ⟨st2, rr⟩
        rw [hr] at h2
        rcases rr with er | v
        · exact h2
        · exact ih e.1 st2 _ h2
      · rw [if_neg hlt]
        exact ih e.1 st1 conds1 h1

/-- Claim C5: within one orchestration run, `do_encode` is invoked at most
once per distinct cache key, and the cache key is a function of exactly the
prompt text and the name-sorted `(lora, clip weight)` pairs. -/
theorem control_to_clip_common_encode_once {Clip : Type}
    (doEnc : Clip → String → Except String (List Cond)) (clip : Clip)
    (loadLora : Clip → List (String × ℚ) → Clip) (S : PromptSchedule)
    (cache0 : List (String × List Cond)) :
    ((control_to_clip_common doEnc clip loadLora S cache0).1.encodeLog.map c_str).Nodup ∧
    (∀ c c' : SegmentConfig, c.prompt = c'.prompt →
      sortPairs c.loras = sortPairs c'.loras → c_str c = c_str c') := by
  constructor
  · exact (ctccLoop_inv doEnc clip loadLora S S.entries 0 ⟨clip, [], cache0, []⟩ []
      ⟨List.nodup_nil, by simp⟩).1
  · intro c c' hp hl
    rw [c_str, c_str, hp, hl]

/-! ## Claim C1: emitted ranges partition the scheduled window -/

theorem getLastD_irrel {α : Type} (l : List α) (h : l ≠ []) (d d' : α) :
    l.getLastD d = l.getLastD d' := by
  cases l with
  | nil => exact absurd rfl h
  | cons x t => rw [List.getLastD_cons, List.getLastD_cons]

theorem getLastD_append_right {α : Type} (xs : List α) :
    ∀ (ys : List α), ys ≠ [] → ∀ d, (xs ++ ys).getLastD d = ys.getLastD d := by
  induction xs with
  | nil => intro ys _ d; rfl
  | cons x t ih =>
    intro ys hy d
    rw [List.cons_append, List.getLastD_cons, ih ys hy x]
    exact getLastD_irrel ys hy x d

theorem getLastD_replicate {α : Type} (r : α) :
    ∀ (n : ℕ) (d : α), (List.replicate (n + 1) r).getLastD d = r := by
  intro n
  induction n with
  | zero => intro d; rfl
  | succ m ih =>
    intro d
    rw [List.replicate_succ, List.getLastD_cons]
    exact ih r

theorem chainOk_replicate (r : ℚ × ℚ) : ∀ n, chainOk (List.replicate n r) = true := by
  intro n
  induction n with
  | zero => rfl
  | succ m ih =>
    cases m with
    | zero => simp [chainOk]
    | succ k =>
      rw [List.replicate_succ, List.replicate_succ, chainOk, ← List.replicate_succ, ih]
      simp

theorem chainOk_append_of : ∀ (xs ys : List (ℚ × ℚ)), chainOk xs = true →
    chainOk ys = true → ys ≠ [] →
    (xs.getLastD (0, 0) = ys.headD (0, 0) ∨
      (xs.getLastD (0, 0)).2 = (ys.headD (0, 0)).1) →
    chainOk (xs ++ ys) = true := by
  intro xs
  induction xs with
  | nil => intro ys _ hy _ _; exact hy
  | cons a t ih =>
    intro ys hx hy hyne hlink
    cases t with
    | nil =>
      cases ys with
      | nil => exact absurd rfl hyne
      | cons b u =>
        rw [List.cons_append, List.nil_append, chainOk, hy]
        rcases hlink with h | h
        · have hab : a = b := h
          simp [hab]
        · have hab : a.2 = b.1 := h
          simp [hab]
    | cons a2 t2 =>
      rw [chainOk] at hx
      rw [Bool.and_eq_true] at hx
      have hl2 : ((a :: a2 :: t2).getLastD (0, 0)) = (a2 :: t2).getLastD (0, 0) := by
        rw [List.getLastD_cons, List.getLastD_cons, List.getLastD_cons]
      rw [List.cons_append, List.cons_append, chainOk, ← List.cons_append,
          ih ys hx.2 hy hyne (hl2 ▸ hlink)]
      simp [hx.1]

theorem alookup_append_cases {α : Type} (k k2 : String) (v2 : α) :
    ∀ (l : List (String × α)) (v : α),
    alookup k (l ++ [(k2, v2)]) = some v → alookup k l = some v ∨ v = v2 := by
  intro l
  induction l with
  | nil =>
    intro v h
    simp only [List.nil_append, alookup] at h
    by_cases hk : k2 = k
    · rw [if_pos hk] at h
      exact Or.inr (Option.some.inj h).symm
    · rw [if_neg hk] at h
      exact absurd h (by simp)
  | cons p t ih =>
    intro v h
    rw [List.cons_append, alookup] at h
    rw [alookup]
    by_cases hk : p.1 = k
    · rw [if_pos hk] at h ⊢
      exact Or.inl h
    · rw [if_neg hk] at h ⊢
      exact ih v h

theorem encodeSt_ne_core {Clip : Type} (doEnc : Clip → String → Except String (List Cond))
    (c : SegmentConfig) (st st1 : OrchState Clip)
    (hcc : st1.cond_cache = st.cond_cache) (hne : CacheNE st)
    (hd : ∃ v, doEnc st1.clip c.prompt = Except.ok v ∧ v ≠ []) :
    ∃ st2 v, (match doEnc st1.clip c.prompt with
      | .error e => (st1, Except.error e)
      | .ok v =>
        ({ st1 with cond_cache := st1.cond_cache ++ [(c_str c, v)],
                    encodeLog := st1.encodeLog ++ [c] }, Except.ok v)) =
        (st2, Except.ok v) ∧ v ≠ [] ∧ CacheNE st2 := by
  obtain ⟨v, hv, hvne⟩ := hd
  rw [hv]
  refine ⟨_, v, rfl, hvne, ?_⟩
  intro k v2 hk
  have hk2 : alookup k (st.cond_cache ++ [(c_str c, v)]) = some v2 := by
    rw [← hcc]
    exact hk
  rcases alookup_append_cases k (c_str c) v st.cond_cache v2 hk2 with h | h
  · exact hne k v2 h
  · rw [h]
    exact hvne

theorem encodeSt_ne {Clip : Type} (doEnc : Clip → String → Except String (List Cond))
    (orig_clip : Clip) (loadLora : Clip → List (String × ℚ) → Clip)
    (c : SegmentConfig) (st : OrchState Clip) (hne : CacheNE st)
    (hd : ∀ cl : Clip, ∃ v, doEnc cl c.prompt = Except.ok v ∧ v ≠ []) :
    ∃ st2 v, encodeSt doEnc orig_clip loadLora c st = (st2, Except.ok v) ∧
      v ≠ [] ∧ CacheNE st2 := by
  rw [encodeSt]
  rcases hl : alookup (c_str c) st.cond_cache with _ | v0
  · dsimp only
    by_cases hc : c.loras ≠ st.current_loras
    · rw [if_pos hc]
      exact encodeSt_ne_core doEnc c st
        { st with clip := loadLora orig_clip c.loras, current_loras := c.loras }
        rfl hne (hd _)
    · rw [if_neg hc]
      exact encodeSt_ne_core doEnc c st st rfl hne (hd _)
  · dsimp only
    exact ⟨st, v0, rfl, hne _ _ hl, hne⟩

theorem map_segRange_stamp (a b : ℚ) (pr : Option String) :
    ∀ (v : List Cond),
    (v.map (fun n => (n.1, { n.2 with
        start_percent := some a
        end_percent := some b
        prompt := pr }))).map segRange = List.replicate v.length (a, b) := by
  intro v
  induction v with
  | nil => rfl
  | cons x t ih =>
    simp only [List.map_cons, List.length_cons, List.replicate_succ]
    rw [ih]
    rfl

theorem ctccLoop_partition {Clip : Type} (doEnc : Clip → String → Except String (List Cond))
    (orig_clip : Clip) (loadLora : Clip → List (String × ℚ) → Clip) (S : PromptSchedule)
    (hint : S.interpolations = []) :
    ∀ (es : List (ℚ × SegmentConfig)) (sp : ℚ) (st : OrchState Clip) (acc : List Cond),
    es ≠ [] →
    List.Chain' (fun a b => a < b) (sp :: es.map (fun e => e.1)) →
    CacheNE st →
    (∀ (cl : Clip) (c : SegmentConfig), c ∈ es.map (fun e => e.2) →
      ∃ v, doEnc cl c.prompt = Except.ok v ∧ v ≠ []) →
    ∃ L st2, ctccLoop doEnc orig_clip loadLora S es sp st acc =
        (st2, Except.ok (acc ++ L)) ∧
      L ≠ [] ∧
      ((L.map segRange).headD (0, 0)).1 = round2 sp ∧
      ((L.map segRange).getLastD (0, 0)).2 =
        round2 ((es.map (fun e => e.1)).getLastD 0) ∧
      chainOk (L.map segRange) = true ∧
      ∀ r ∈ L.map segRange, r.1 ≤ r.2 := by
  intro es
  induction es with
  | nil => intro sp st acc hne; exact absurd rfl hne
  | cons e rest ih =>
    intro sp st acc _ hasc hcne hdok
    simp only [List.map_cons, List.chain'_cons] at hasc
    rw [ctccLoop, hint]
    simp only [List.filter_nil]
    rw [if_pos hasc.1]
    obtain ⟨st2, v, henc, hvne, hcne2⟩ :=
      encodeSt_ne doEnc orig_clip loadLora e.2 st hcne
        (fun cl => hdok cl e.2 (by simp))
    rw [henc]
    dsimp only
    have hmap := map_segRange_stamp (round2 sp) (round2 e.1) (some e.2.prompt) v
    obtain ⟨m, hm⟩ : ∃ m, v.length = m + 1 := by
      cases v with
      | nil => exact absurd rfl hvne
      | cons x t => exact ⟨t.length, rfl⟩
    by_cases hrest : rest = []
    · subst hrest
      rw [ctccLoop]
      refine ⟨v.map (fun n => (n.1, { n.2 with
          start_percent := some (round2 sp)
          end_percent := some (round2 e.1)
          prompt := some e.2.prompt })), st2, rfl, ?_, ?_, ?_, ?_, ?_⟩
      · intro h0
        apply hvne
        rcases v with _ | ⟨x, t⟩
        · rfl
        · exact absurd h0 (by simp)
      · rw [hmap, hm, List.replicate_succ]
        rfl
      · rw [hmap, hm, getLastD_replicate]
        rfl
      · rw [hmap]
        exact chainOk_replicate _ _
      · rw [hmap]
        intro r hr
        rw [List.eq_of_mem_replicate hr]
        exact round2_mono (le_of_lt hasc.1)
    · have hdok2 : ∀ (cl : Clip) (c : SegmentConfig), c ∈ rest.map (fun e => e.2) →
          ∃ v, doEnc cl c.prompt = Except.ok v ∧ v ≠ [] := by
        intro cl c hc
        refine hdok cl c ?_
        simp only [List.map_cons, List.mem_cons]
        exact Or.inr hc
      obtain ⟨L2, st3, hrec, hL2ne, hhead, hlast, hchain, hle⟩ :=
        ih e.1 st2 (acc ++ v.map (fun n => (n.1, { n.2 with
          start_percent := some (round2 sp)
          end_percent := some (round2 e.1)
          prompt := some e.2.prompt }))) hrest hasc.2 hcne2 hdok2
      rw [hrec]
      have hMne : L2.map segRange ≠ [] := by
        intro h0
        apply hL2ne
        rcases L2 with _ | ⟨x, t⟩
        · rfl
        · exact absurd h0 (by simp)
      have hRne : rest.map (fun e => e.1) ≠ [] := by
        intro h0
        apply hrest
        rcases rest with _ | ⟨x, t⟩
        · rfl
        · exact absurd h0 (by simp)
      refine ⟨v.map (fun n => (n.1, { n.2 with
          start_percent := some (round2 sp)
          end_percent := some (round2 e.1)
          prompt := some e.2.prompt })) ++ L2, st3, ?_, ?_, ?_, ?_, ?_, ?_⟩
      · rw [List.append_assoc]
      · intro h0
        apply hL2ne
        exact (List.append_eq_nil.mp h0).2
      · rw [List.map_append, hmap, hm, List.replicate_succ, List.cons_append]
        rfl
      · rw [List.map_append, getLastD_append_right _ _ hMne, hlast, List.map_cons,
            List.getLastD_cons, getLastD_irrel (rest.map (fun e => e.1)) hRne 0 e.1]
      · rw [List.map_append]
        refine chainOk_append_of _ _ ?_ hchain hMne ?_
        · rw [hmap]
          exact chainOk_replicate _ _
        · refine Or.inr ?_
          rw [hmap, hm, getLastD_replicate]
          exact hhead.symm
      · rw [List.map_append]
        intro r hr
        rcases List.mem_append.mp hr with h | h
        · rw [hmap] at h
          rw [List.eq_of_mem_replicate h]
          exact round2_mono (le_of_lt hasc.1)
        · exact hle r h

/-- Claim C1 (amended): for a schedule with no interpolation specs, strictly
ascending positive entry percentages ending at 1, and prompts that all encode
to nonempty segment lists, the orchestrator (started on an empty cache)
succeeds and the emitted segments' `[start_percent, end_percent)` ranges
partition `[0, 1]`: the list is nonempty, the first range starts at 0, the
last ends at 1, consecutive ranges coincide or abut, and each range is
nondegenerate.  (The nonempty-encode proviso is necessary: `do_encode`
returns an empty list for a segment whose summed weights are all zero, which
leaves a gap in the cover — see the counterexample.) -/
theorem control_to_clip_common_partition {Clip : Type}
    (doEnc : Clip → String → Except String (List Cond)) (clip : Clip)
    (loadLora : Clip → List (String × ℚ) → Clip) (S : PromptSchedule)
    (hint : S.interpolations = [])
    (hne : S.entries ≠ [])
    (hasc : List.Chain' (fun a b => a < b) (0 :: S.entries.map (fun e => e.1)))
    (hcover : (S.entries.map (fun e => e.1)).getLastD 0 = 1)
    (hdok : ∀ (cl : Clip) (c : SegmentConfig), c ∈ S.entries.map (fun e => e.2) →
      ∃ v, doEnc cl c.prompt = Except.ok v ∧ v ≠ []) :
    ∃ L, (control_to_clip_common doEnc clip loadLora S []).2 = Except.ok L ∧
      partitionChain (L.map segRange) = true := by
  obtain ⟨L, st2, hrun, hLne, hhead, hlast, hchain, hle⟩ :=
    ctccLoop_partition doEnc clip loadLora S hint S.entries 0
      ⟨clip, [], [], []⟩ [] hne hasc
      (fun k v h => absurd h (by simp [alookup])) hdok
  refine ⟨L, ?_, ?_⟩
  · rw [control_to_clip_common, hrun]
    rfl
  · have hMne : L.map segRange ≠ [] := by
      intro h0
      apply hLne
      rcases L with _ | ⟨x, t⟩
      · rfl
      · exact absurd h0 (by simp)
    simp only [partitionChain, Bool.and_eq_true, Bool.not_eq_true',
      decide_eq_true_eq, List.all_eq_true]
    refine ⟨⟨⟨⟨?_, ?_⟩, ?_⟩, ?_⟩, ?_⟩
    · rcases hM : L.map segRange with _ | ⟨x, t⟩
      · exact absurd hM hMne
      · rfl
    · exact hhead.trans round2_zero
    · refine hlast.trans ?_
      rw [hcover]
      exact round2_one
    · exact hchain
    · intro x hx
      exact hle x hx

section Evaluation
/-! Closed evaluations at concrete inputs.  The rational arithmetic kernel
operations are made semireducible here so that `decide` can evaluate them;
this affects only the elaboration of the theorems in this section. -/
set_option allowUnsafeReducibility true
attribute [local semireducible] Rat.add Rat.mul Rat.inv Rat.sub Rat.div Rat.neg

/-- Witness for C10: a concrete pooled-less pair raises. -/
theorem linear_interpolate_cond_unbound_pooled_witness :
    linear_interpolate_cond [([1], Meta.empty)] [([1], Meta.empty)] 0 1 (1/10)
      none none "N/A" = .error "UnboundLocalError: new_pooled" :=
  linear_interpolate_cond_unbound_pooled _ _ _ _ _ _ _ _ ([1], Meta.empty)
    ([1], Meta.empty) rfl rfl rfl rfl (by decide)

/-- Counterexample to claim C4 as stated: with `end_at = 1/8 = 0.125` the
call succeeds, emits one segment, and that final segment's `end_percent` is
`round(0.125, 2) = 0.12 = 3/25`, not the requested `end_at`. -/
theorem linear_interpolate_cond_end_at_rounded :
    (okD (linear_interpolate_cond [cW] [cW] 0 1 (1/10) (some 0) (some (1/8)) "N/A")).map
      (fun c => c.2.end_percent) = [some (3/25)] ∧ ¬((3/25 : ℚ) = 1/8) := by
  constructor
  · decide
  · decide

/-- Witness for C4 (amended): a concrete one-pair call emits ten segments. -/
theorem linear_interpolate_cond_ten_segments_witness :
    (okD (linear_interpolate_cond [cW] [cW] 0 1 (1/10) none none "N/A")).length =
      10 * [cW].length :=
  (linear_interpolate_cond_ten_segments.1 [cW] [cW]
    (okD (linear_interpolate_cond [cW] [cW] 0 1 (1/10) none none "N/A")) rfl (by decide)).1

/-- Witness for C8: a concrete self-interpolation. -/
theorem linear_interpolate_cond_self_id_witness :
    ∃ l, linear_interpolate_cond [cW] [cW] 0 1 (1/10) none none "N/A" = .ok l ∧
      l.length = 10 * [cW].length ∧
      ∀ i seg, l[i]? = some seg →
        ∃ a, [cW][i / 10]? = some a ∧ seg.1 = a.1 ∧
          seg.2.pooled_output = a.2.pooled_output :=
  linear_interpolate_cond_self_id [cW] (by decide)

/-- Claim C3: a spatial AREA or MASK directive whose four range values are
neither all percentages in `[0, 1]` nor all pixel magnitudes (zero or above
one) raises a format error, which propagates uncaught out of `do_encode`;
all-percentage and all-pixel value sets never raise, and all-pixel AREA
values not also readable as percentages are converted by integer floor
division by 8. -/
theorem area_mask_unit_validation :
    (∀ x w y h wt : ℚ, ¬([h, w, y, x].all is_pct = true) →
      ¬([h, w, y, x].all is_pixel = true) →
      area_from_floats x w y h wt = .error "AREA specified with invalid size") ∧
    (∀ x w y h wt : ℚ,
      ([h, w, y, x].all is_pct = true) ∨ ([h, w, y, x].all is_pixel = true) →
      ∃ v, area_from_floats x w y h wt = .ok v) ∧
    (∀ x w y h wt : ℚ, [h, w, y, x].all is_pixel = true →
      ¬([h, w, y, x].all is_pct = true) →
      area_from_floats x w y h wt = .ok (.pixel ((pyTrunc h).fdiv 8) ((pyTrunc w).fdiv 8)
        ((pyTrunc y).fdiv 8) ((pyTrunc x).fdiv 8), wt)) ∧
    (∀ (x1 x2 y1 y2 wt : ℚ) (size : ℤ × ℤ), ¬([x1, x2, y1, y2].all is_pct = true) →
      ¬([x1, x2, y1, y2].all is_pixel = true) →
      mask_from_floats x1 x2 y1 y2 wt size = .error "MASK specified with invalid size") ∧
    (∀ (x1 x2 y1 y2 wt : ℚ) (size : ℤ × ℤ),
      ([x1, x2, y1, y2].all is_pct = true) ∨ ([x1, x2, y1, y2].all is_pixel = true) →
      ∃ v, mask_from_floats x1 x2 y1 y2 wt size = .ok v) ∧
    (do_encode encTest zrandn "AREA(0.2 0.8, 64 256, 1) a cat" =
      .error "AREA specified with invalid size") ∧
    (do_encode encTest zrandn "MASK(0.2 0.8, 64 256, 1) a cat" =
      .error "MASK specified with invalid size") :=
  ⟨area_from_floats_mixed, area_from_floats_valid, area_from_floats_pixel,
   mask_from_floats_mixed, mask_from_floats_valid, by decide, by decide⟩

/-- Witness for C3: the spec's mixed example errors, an all-percentage set
and an all-pixel set succeed, and pixel values floor-divide by 8. -/
theorem area_mask_unit_validation_witness :
    area_from_floats (1/5) (4/5) 64 256 1 = .error "AREA specified with invalid size" ∧
    (∃ v, area_from_floats 0 (1/2) 0 (1/2) 1 = .ok v) ∧
    area_from_floats 0 512 16 257 (1/2) =
      .ok (.pixel 32 64 2 0, 1/2) ∧
    (∃ v, mask_from_floats 0 (1/2) 0 (1/2) 1 (512, 512) = .ok v) :=
  ⟨area_mask_unit_validation.1 (1/5) (4/5) 64 256 1 (by decide) (by decide),
   area_mask_unit_validation.2.1 0 (1/2) 0 (1/2) 1 (Or.inl (by decide)),
   by
     have := area_mask_unit_validation.2.2.1 0 512 16 257 (1/2) (by decide) (by decide)
     rw [this]
     decide,
   area_mask_unit_validation.2.2.2.2.1 0 (1/2) 0 (1/2) 1 (512, 512) (Or.inl (by decide))⟩

/-- Claim C6 (code bug): an all-percentage MASK on an 8-by-8 canvas yields an
all-zero mask.  Line 381 writes `mask[ys0:ys1, xs0:xs1] = 1` on the
`(1, h, w)`-shaped tensor, so the y-range slices the singleton batch
dimension (`2:6` on a size-1 axis selects nothing), instead of setting the
claimed interior rectangle rows 2..6, columns 2..6 to 1. -/
theorem get_mask_pct_all_zero :
    get_mask "MASK(0.25 0.75, 0.25 0.75, 1)" (8, 8) =
      .ok ("", some (torchFull3 1 8 8 0), some 1) := by
  decide

/-- Claim C7 (code bug): `get_sdxl` parses `SDXL(1 2, 3 4, 5 6)` but sets
`target_height` from `tw` (line 174), producing `3` where the claim (and the
parsed `th`) say `4`. -/
theorem get_sdxl_target_height_from_tw :
    get_sdxl "SDXL(1 2, 3 4, 5 6)" =
      ("", ⟨some 1, some 2, some 3, some 3, some 5, some 6⟩) ∧ ¬((3 : ℤ) = 4) := by
  constructor
  · decide
  · decide

/-- Claim C2 (code bug): for `"a:2 AND b:1"` the summed segment's tensor is
`enc("a:2")` — line 453's `get_sdxl(p)` rebinds `prompt` to the first
sub-prompt's text (weight suffix included) on every iteration, so the result
is `(2/3 + 1/3) * enc("a:2")`, not `(2*enc("a") + 1*enc("b")) / 3`. -/
theorem do_encode_and_sum_first_prompt :
    (okD (do_encode encTest zrandn "a:2 AND b:1")).map (fun c => c.1) =
      [(encTest "a:2" "comfy" "none").1] ∧
    ¬((encTest "a:2" "comfy" "none").1 =
      vscale (1/3) (vadd (vscale 2 (encTest "a" "comfy" "none").1)
        (encTest "b" "comfy" "none").1)) := by
  constructor
  · decide
  · decide

/-- Counterexample to claim C1 as stated: the schedule `0..0.5: "a",
0.5..1: "a:0"` covers `[0, 1]` and has no interpolation specs, yet the
zero-weight prompt `"a:0"` encodes (via the real `do_encode`) to the empty
segment list, so the run succeeds while emitting only the range `[0, 0.5)`:
the emitted ranges leave a gap over `[0.5, 1]` and do not partition
`[0, 1]`. -/
theorem control_to_clip_common_gap :
    (okD (control_to_clip_common (fun (_ : Unit) t => do_encode encTest zrandn t) ()
        (fun _ _ => ()) ⟨[(1/2, ⟨"a", []⟩), (1, ⟨"a:0", []⟩)], []⟩ []).2).map segRange =
      [(0, 1/2)] ∧
    partitionChain ((okD (control_to_clip_common (fun (_ : Unit) t =>
        do_encode encTest zrandn t) () (fun _ _ => ())
        ⟨[(1/2, ⟨"a", []⟩), (1, ⟨"a:0", []⟩)], []⟩ []).2).map segRange) = false := by
  constructor
  · decide
  · decide

theorem control_to_clip_common_partition_witness :
    ∃ L, (control_to_clip_common (fun (_ : Unit) (_ : String) => Except.ok [cW]) ()
        (fun _ _ => ()) ⟨[(1/2, ⟨"a", []⟩), (1, ⟨"b", []⟩)], []⟩ []).2 = Except.ok L ∧
      partitionChain (L.map segRange) = true :=
  control_to_clip_common_partition (fun (_ : Unit) (_ : String) => Except.ok [cW]) ()
    (fun _ _ => ()) ⟨[(1/2, ⟨"a", []⟩), (1, ⟨"b", []⟩)], []⟩ rfl (by decide)
    (by simp only [List.map_cons, List.map_nil, List.chain'_cons,
      List.chain'_singleton, and_true]
        exact ⟨by norm_num, by norm_num⟩)
    (by decide) (fun cl c _ => ⟨[cW], rfl, by decide⟩)

end Evaluation

end PromptControl
